import Mathlib

/-
Shallow embedding of `src/frame_buffer.rs` from the stomp-rs repository:
an incremental STOMP frame parser over a byte queue, with a three-phase
parse-state machine (Command / Headers / Body), two body-delimiting
strategies (Content-Length and null-octet), and a string pool.

Modelling conventions:
- Bytes are `Nat` (the Rust code pops `u8` values off a `VecDeque<u8>`).
- Rust `String`s are modelled by their UTF-8 byte sequences (`List Nat`);
  `std::str::from_utf8` is modelled by the `is_utf8` validator below, and
  `trim_right_matches(&['\r','\n'])` by dropping trailing 13/10 bytes
  (for valid UTF-8 these byte values occur exactly at the chars `\r`,`\n`).
- Rust panics (`panic!` / `.expect`) abort the process; they are modelled
  as `Except.error` carrying a `PanicMsg` naming the panic site, and the
  computation that panicked produces no successor state.
- `&mut self` methods become functions `FrameBuffer -> ... × FrameBuffer`.
- The `lifeguard` string pool and the header module (`HeaderCodec`,
  `HeaderList`, `get_content_length`) are external collaborators not in
  `src/`; they are modelled from the spec where marked.
- The header-reading loop of `resume_parsing_at_headers` and the repeated
  reads of `drain` are written with an explicit fuel argument; each loop
  iteration consumes at least one buffered byte, so fuel
  `buffer.length + 1` is always sufficient (proved by the `_congr`
  lemmas below, which show the result is fuel-independent above the
  buffer length).
-/

/-- The three parse phases of the state machine (`enum FrameSection`). -/
inductive FrameSection
  | Command
  | Headers
  | Body
deriving DecidableEq

/-- A decoded header: an opaque key/value pair (`header::Header`). -/
structure Header where
  key : List Nat
  value : List Nat
deriving DecidableEq

/-- The ordered header accumulator (`header::HeaderList`). -/
abbrev HeaderList := List Header

/-- In-progress reconstruction of one transmission (`struct ParseState`).
The Rust field `section` is named `phase` here because `section` is a
Lean keyword. -/
structure ParseState where
  command : Option (List Nat)
  headers : HeaderList
  phase : FrameSection
deriving DecidableEq

/-- A complete protocol message (`frame::Frame`). -/
structure Frame where
  command : List Nat
  headers : HeaderList
  body : List Nat
deriving DecidableEq

/-- The unit returned to the caller (`frame::Transmission`). -/
inductive Transmission
  | HeartBeat
  | CompleteFrame (frame : Frame)
deriving DecidableEq

/-- The frame buffer (`struct FrameBuffer`): byte queue, parse state and
string pool. The `header_codec` field carries only its own pool, which is
not observable in parsing results, so it is not modelled. -/
structure FrameBuffer where
  buffer : List Nat
  parse_state : ParseState
  string_pool : List (List Nat)
deriving DecidableEq

/-- The panic sites of `frame_buffer.rs`, one constructor per
`panic!`/`.expect` message. -/
inductive PanicMsg
  | readBeyondEnd
  | notUtf8
  | invalidHeader
  | noCommand
deriving DecidableEq

/-- Result of `read_command`. -/
inductive ReadCommandResult
  | HeartBeat
  | Command (s : List Nat)
  | Incomplete
deriving DecidableEq

/-- Result of `read_header`. -/
inductive ReadHeaderResult
  | Header (h : Header)
  | EndOfHeaders
  | Incomplete
deriving DecidableEq

def DEFAULT_STRING_POOL_SIZE : Nat := 4

def DEFAULT_STRING_POOL_MAX_SIZE : Nat := 32

/-- Modelled from the spec: `lifeguard` pool release (§4.3) — a released
value returns its storage to the pool if the pool has not reached its
maximum retained count, otherwise it is dropped. -/
def pool_attach (pool : List (List Nat)) (s : List Nat) : List (List Nat) :=
  if pool.length < DEFAULT_STRING_POOL_MAX_SIZE then s :: pool else pool

/-- Modelled from the spec: `lifeguard` pool acquire (§4.3) — acquiring
reuses a released entry's backing storage (removing it from the pool) or
allocates fresh when the pool is empty; the value received is determined
by the initializing bytes either way. -/
def pool_take (pool : List (List Nat)) : List (List Nat) :=
  pool.drop 1

def ParseState.new : ParseState :=
  { command := none, headers := [], phase := .Command }

def FrameBuffer.with_capacity (_capacity : Nat) : FrameBuffer :=
  { buffer := [],
    parse_state := ParseState.new,
    string_pool := List.replicate DEFAULT_STRING_POOL_SIZE [] }

def FrameBuffer.new : FrameBuffer :=
  FrameBuffer.with_capacity (1024 * 64)

def FrameBuffer.len (fb : FrameBuffer) : Nat :=
  fb.buffer.length

/-- `reset_parse_state` — note that the source resets only the `section`
field; the stored command and accumulated headers are left as they are. -/
def reset_parse_state (fb : FrameBuffer) : FrameBuffer :=
  { fb with parse_state := { fb.parse_state with phase := .Command } }

def FrameBuffer.reset (fb : FrameBuffer) : FrameBuffer :=
  reset_parse_state { fb with buffer := [] }

def FrameBuffer.append (fb : FrameBuffer) (bytes : List Nat) : FrameBuffer :=
  { fb with buffer := fb.buffer ++ bytes }

/-- `find_next`: offset of the first occurrence of `needle` in the
buffered bytes, scanning from the head. -/
def find_next (needle : Nat) : List Nat → Option Nat
  | [] => none
  | b :: rest => if b = needle then some 0 else (find_next needle rest).map (· + 1)

/-- `read_into_vec`: remove and return `n` bytes from the head; popping
past the end is the `readBeyondEnd` panic. -/
def read_into_vec (n : Nat) (buffer : List Nat) : Except PanicMsg (List Nat × List Nat) :=
  match n, buffer with
  | 0, buffer => .ok ([], buffer)
  | _ + 1, [] => .error .readBeyondEnd
  | n + 1, b :: rest =>
    match read_into_vec n rest with
    | .ok (v, remaining) => .ok (b :: v, remaining)
    | .error e => .error e

/-- Whether `b` is a UTF-8 continuation byte (0x80–0xBF). -/
def is_utf8_cont (b : Nat) : Bool :=
  128 ≤ b && b ≤ 191

/-- States of the UTF-8 validation automaton: `start` between scalar
values; the others name how many continuation bytes are still expected
and, where the lead byte constrains the next byte beyond 0x80–0xBF
(E0/ED/F0/F4 leads), which constrained range applies. -/
inductive Utf8State
  | start
  | one
  | two
  | twoE0
  | twoED
  | three
  | threeF0
  | threeF4
deriving DecidableEq

/-- Run of the UTF-8 validation automaton over a byte sequence, per
`std::str::from_utf8`: no continuation bytes out of place, no overlong
encodings, no surrogates, maximum scalar value 0x10FFFF. -/
def utf8_run : Utf8State → List Nat → Bool
  | .start, [] => true
  | .one, [] => false
  | .two, [] => false
  | .twoE0, [] => false
  | .twoED, [] => false
  | .three, [] => false
  | .threeF0, [] => false
  | .threeF4, [] => false
  | .start, b :: rest =>
    if b ≤ 127 then utf8_run .start rest
    else if b < 194 then false
    else if b ≤ 223 then utf8_run .one rest
    else if b = 224 then utf8_run .twoE0 rest
    else if b = 237 then utf8_run .twoED rest
    else if b ≤ 239 then utf8_run .two rest
    else if b = 240 then utf8_run .threeF0 rest
    else if b ≤ 243 then utf8_run .three rest
    else if b = 244 then utf8_run .threeF4 rest
    else false
  | .one, b :: rest => is_utf8_cont b && utf8_run .start rest
  | .two, b :: rest => is_utf8_cont b && utf8_run .one rest
  | .twoE0, b :: rest => (160 ≤ b && b ≤ 191) && utf8_run .one rest
  | .twoED, b :: rest => (128 ≤ b && b ≤ 159) && utf8_run .one rest
  | .three, b :: rest => is_utf8_cont b && utf8_run .two rest
  | .threeF0, b :: rest => (144 ≤ b && b ≤ 191) && utf8_run .two rest
  | .threeF4, b :: rest => (128 ≤ b && b ≤ 143) && utf8_run .two rest

/-- UTF-8 validity of a byte sequence (`std::str::from_utf8` succeeds). -/
def is_utf8 (l : List Nat) : Bool :=
  utf8_run .start l

/-- `read_into_string`: take `n` bytes and validate them as UTF-8 (the
validation failure is the `notUtf8` panic of the source); the string pool
supplies the backing storage. -/
def read_into_string (n : Nat) (buffer : List Nat) (pool : List (List Nat)) :
    Except PanicMsg (List Nat × List Nat × List (List Nat)) :=
  match read_into_vec n buffer with
  | .error e => .error e
  | .ok (vec, remaining) =>
    if is_utf8 vec then .ok (vec, remaining, pool_take pool) else .error .notUtf8

/-- `chomp`: strip trailing `\r`/`\n` bytes from an extracted line. -/
def chomp (line : List Nat) : List Nat :=
  (line.reverse.dropWhile (fun b => b == 13 || b == 10)).reverse

/-- Modelled from the spec: the external `HeaderCodec.decode` (§4.4, §6,
§8) — a header line is `name:value`, split at the first colon; a line
lacking the separator fails to decode, which at the call site in
`read_header` is the `invalidHeader` panic. -/
def header_codec_decode (line : List Nat) : Except PanicMsg Header :=
  match find_next 58 line with
  | some i => .ok { key := line.take i, value := line.drop (i + 1) }
  | none => .error .invalidHeader

/-- Decimal parse of a header value, digits only. -/
def parse_decimal (bs : List Nat) : Option Nat :=
  if bs.isEmpty then none
  else
    bs.foldl
      (fun acc b => acc.bind fun n =>
        if 48 ≤ b ∧ b ≤ 57 then some (n * 10 + (b - 48)) else none)
      (some 0)

/-- The bytes of the header name `content-length`. -/
def content_length_key : List Nat :=
  [99, 111, 110, 116, 101, 110, 116, 45, 108, 101, 110, 103, 116, 104]

/-- Modelled from the spec: the external `get_content_length` query
(§3, §4.4) — the numeric value of the first `content-length` header in
the accumulated list, if any. -/
def get_content_length : HeaderList → Option Nat
  | [] => none
  | h :: rest =>
    if h.key = content_length_key then parse_decimal h.value
    else get_content_length rest

/-- `read_command`: scan for `\n`; take and chomp the line; an empty
chomped line is a heartbeat (its pooled storage is released), otherwise
the line is the command. -/
def read_command (fb : FrameBuffer) : Except PanicMsg (ReadCommandResult × FrameBuffer) :=
  match find_next 10 fb.buffer with
  | some index =>
    match read_into_string (index + 1) fb.buffer fb.string_pool with
    | .error e => .error e
    | .ok (s, remaining, pool) =>
      let command := chomp s
      if command = [] then
        .ok (.HeartBeat, { fb with buffer := remaining, string_pool := pool_attach pool command })
      else
        .ok (.Command command, { fb with buffer := remaining, string_pool := pool })
  | none => .ok (.Incomplete, fb)

/-- `read_header`: scan for `\n`; an empty chomped line is the
end-of-headers sentinel; otherwise decode the line (decode failure is
the `invalidHeader` panic) and release the raw line's pooled storage. -/
def read_header (fb : FrameBuffer) : Except PanicMsg (ReadHeaderResult × FrameBuffer) :=
  match find_next 10 fb.buffer with
  | some index =>
    match read_into_string (index + 1) fb.buffer fb.string_pool with
    | .error e => .error e
    | .ok (s, remaining, pool) =>
      let header_string := chomp s
      if header_string = [] then
        .ok (.EndOfHeaders, { fb with buffer := remaining, string_pool := pool_attach pool header_string })
      else
        match header_codec_decode header_string with
        | .error e => .error e
        | .ok header =>
          .ok (.Header header, { fb with buffer := remaining, string_pool := pool_attach pool header_string })
  | none => .ok (.Incomplete, fb)

/-- `read_body_by_content_length`: require `content_length + 1` buffered
bytes (body plus trailing null octet); take them and discard the final
octet without inspecting it. -/
def read_body_by_content_length (fb : FrameBuffer) (content_length : Nat) :
    Except PanicMsg (Option (List Nat) × FrameBuffer) :=
  let bytes_needed := content_length + 1
  if fb.buffer.length < bytes_needed then .ok (none, fb)
  else
    match read_into_vec bytes_needed fb.buffer with
    | .error e => .error e
    | .ok (body, remaining) => .ok (some body.dropLast, { fb with buffer := remaining })

/-- `read_body_by_null_octet`: scan for the first `0x00`; take through
and including it and discard the sentinel. -/
def read_body_by_null_octet (fb : FrameBuffer) :
    Except PanicMsg (Option (List Nat) × FrameBuffer) :=
  match find_next 0 fb.buffer with
  | some index =>
    match read_into_vec (index + 1) fb.buffer with
    | .error e => .error e
    | .ok (body, remaining) => .ok (some body.dropLast, { fb with buffer := remaining })
  | none => .ok (none, fb)

/-- `read_body`: choose the body-delimiting strategy from the
accumulated headers. -/
def read_body (fb : FrameBuffer) : Except PanicMsg (Option (List Nat) × FrameBuffer) :=
  match get_content_length fb.parse_state.headers with
  | some num_bytes => read_body_by_content_length fb num_bytes
  | none => read_body_by_null_octet fb

/-- `resume_parsing_at_body`: on a completed body, take the stored
command (its absence is the `noCommand` panic), move the headers out,
assemble the frame, and fully reset the parse state. -/
def resume_parsing_at_body (fb : FrameBuffer) :
    Except PanicMsg (Option Transmission × FrameBuffer) :=
  match read_body fb with
  | .error e => .error e
  | .ok (some body_bytes, fb1) =>
    match fb1.parse_state.command with
    | some command =>
      .ok (some (.CompleteFrame { command := command, headers := fb1.parse_state.headers, body := body_bytes }),
           { fb1 with parse_state := { command := none, headers := [], phase := .Command } })
    | none => .error .noCommand
  | .ok (none, fb1) => .ok (none, fb1)

/-- Push a decoded header onto the accumulator
(`self.parse_state.headers.push(header)`). -/
def push_header (fb : FrameBuffer) (header : Header) : FrameBuffer :=
  { fb with parse_state := { fb.parse_state with headers := fb.parse_state.headers ++ [header] } }

/-- Advance the phase to Body (`self.parse_state.section = Body`). -/
def to_body_phase (fb : FrameBuffer) : FrameBuffer :=
  { fb with parse_state := { fb.parse_state with phase := .Body } }

/-- Store the parsed command and advance the phase to Headers. -/
def to_headers_phase (fb : FrameBuffer) (command_string : List Nat) : FrameBuffer :=
  { fb with parse_state := { fb.parse_state with command := some command_string, phase := .Headers } }

/-- The header-reading loop of `resume_parsing_at_headers`, with fuel.
Each `Header`/`EndOfHeaders` outcome consumes at least one byte, so fuel
above the buffer length never runs out (`resume_headers_fuel_congr`). -/
def resume_headers_fuel : Nat → FrameBuffer → Except PanicMsg (Option Transmission × FrameBuffer)
  | 0, fb => .ok (none, fb)
  | fuel + 1, fb =>
    match read_header fb with
    | .error e => .error e
    | .ok (.Header header, fb1) => resume_headers_fuel fuel (push_header fb1 header)
    | .ok (.EndOfHeaders, fb1) => resume_parsing_at_body (to_body_phase fb1)
    | .ok (.Incomplete, fb1) => .ok (none, fb1)

def resume_parsing_at_headers (fb : FrameBuffer) :
    Except PanicMsg (Option Transmission × FrameBuffer) :=
  resume_headers_fuel (fb.buffer.length + 1) fb

/-- `resume_parsing_at_command`: a heartbeat is emitted immediately; a
command is stored and parsing continues at the headers in the same call. -/
def resume_parsing_at_command (fb : FrameBuffer) :
    Except PanicMsg (Option Transmission × FrameBuffer) :=
  match read_command fb with
  | .error e => .error e
  | .ok (.HeartBeat, fb1) => .ok (some .HeartBeat, fb1)
  | .ok (.Command command_string, fb1) =>
    resume_parsing_at_headers (to_headers_phase fb1 command_string)
  | .ok (.Incomplete, fb1) => .ok (none, fb1)

/-- `read_transmission`: resume parsing at the current phase. -/
def read_transmission (fb : FrameBuffer) :
    Except PanicMsg (Option Transmission × FrameBuffer) :=
  match fb.parse_state.phase with
  | .Command => resume_parsing_at_command fb
  | .Headers => resume_parsing_at_headers fb
  | .Body => resume_parsing_at_body fb

/-- `recycle_frame`: the command string returns to the string pool; the
headers are drained to the header codec's own pool, which is not
observable here. -/
def recycle_frame (fb : FrameBuffer) (frame : Frame) : FrameBuffer :=
  { fb with string_pool := pool_attach fb.string_pool frame.command }

/-- Repeatedly call `read_transmission`, collecting emitted transmissions
until it reports incomplete, with fuel. Every emission consumes at least
one byte, so fuel above the buffer length never runs out (`drain_fuel_congr`). -/
def drain_fuel : Nat → FrameBuffer → Except PanicMsg (List Transmission × FrameBuffer)
  | 0, fb => .ok ([], fb)
  | fuel + 1, fb =>
    match read_transmission fb with
    | .error e => .error e
    | .ok (none, fb1) => .ok ([], fb1)
    | .ok (some t, fb1) =>
      match drain_fuel fuel fb1 with
      | .error e => .error e
      | .ok (ts, fb2) => .ok (t :: ts, fb2)

def drain (fb : FrameBuffer) : Except PanicMsg (List Transmission × FrameBuffer) :=
  drain_fuel (fb.buffer.length + 1) fb

/-- Append each chunk in turn, draining all available transmissions
after each append. -/
def process_chunks : List (List Nat) → FrameBuffer → Except PanicMsg (List Transmission × FrameBuffer)
  | [], fb => .ok ([], fb)
  | chunk :: rest, fb =>
    match drain (fb.append chunk) with
    | .error e => .error e
    | .ok (ts, fb1) =>
      match process_chunks rest fb1 with
      | .error e => .error e
      | .ok (ts2, fb2) => .ok (ts ++ ts2, fb2)

/-- The direction of the spec's phase invariant that the code maintains:
in the Headers or Body phase a stored command is present. -/
def CommandPresentInv (fb : FrameBuffer) : Prop :=
  (fb.parse_state.phase = .Headers ∨ fb.parse_state.phase = .Body) →
    fb.parse_state.command ≠ none

/-- States reachable from a fresh `FrameBuffer` by the public operations.
A read that panics aborts the process in Rust, so only `ok` outcomes
yield successor states. -/
inductive Reachable : FrameBuffer → Prop
  | new : Reachable FrameBuffer.new
  | append (fb : FrameBuffer) (bytes : List Nat) :
      Reachable fb → Reachable (fb.append bytes)
  | read (fb fb' : FrameBuffer) (r : Option Transmission) :
      Reachable fb → read_transmission fb = .ok (r, fb') → Reachable fb'
  | reset (fb : FrameBuffer) : Reachable fb → Reachable fb.reset
  | recycle (fb : FrameBuffer) (frame : Frame) :
      Reachable fb → Reachable (recycle_frame fb frame)

/-! Basic facts about the byte-queue primitives. -/

theorem append_buffer (fb : FrameBuffer) (cs : List Nat) :
    (fb.append cs).buffer = fb.buffer ++ cs := rfl

theorem append_parse_state (fb : FrameBuffer) (cs : List Nat) :
    (fb.append cs).parse_state = fb.parse_state := rfl

theorem append_string_pool (fb : FrameBuffer) (cs : List Nat) :
    (fb.append cs).string_pool = fb.string_pool := rfl

theorem append_nil (fb : FrameBuffer) : fb.append [] = fb := by
  simp [FrameBuffer.append]

theorem append_append (fb : FrameBuffer) (a b : List Nat) :
    (fb.append a).append b = fb.append (a ++ b) := by
  simp [FrameBuffer.append]

theorem push_header_append (fb : FrameBuffer) (hd : Header) (cs : List Nat) :
    push_header (fb.append cs) hd = (push_header fb hd).append cs := rfl

theorem to_body_phase_append (fb : FrameBuffer) (cs : List Nat) :
    to_body_phase (fb.append cs) = (to_body_phase fb).append cs := rfl

theorem to_headers_phase_append (fb : FrameBuffer) (c : List Nat) (cs : List Nat) :
    to_headers_phase (fb.append cs) c = (to_headers_phase fb c).append cs := rfl

theorem push_header_buffer (fb : FrameBuffer) (hd : Header) :
    (push_header fb hd).buffer = fb.buffer := rfl

theorem to_body_phase_buffer (fb : FrameBuffer) :
    (to_body_phase fb).buffer = fb.buffer := rfl

theorem to_headers_phase_buffer (fb : FrameBuffer) (c : List Nat) :
    (to_headers_phase fb c).buffer = fb.buffer := rfl

theorem find_next_lt_length {needle : Nat} :
    ∀ {l : List Nat} {i : Nat}, find_next needle l = some i → i < l.length := by
  intro l
  induction l with
  | nil => intro i h; simp [find_next] at h
  | cons b rest ih =>
    intro i h
    by_cases hb : b = needle
    · simp only [find_next, hb, if_true, ite_true, Option.some.injEq] at h
      simp only [List.length_cons]
      omega
    · simp only [find_next, hb, if_false, Option.map_eq_some'] at h
      obtain ⟨j, hj, hji⟩ := h
      have := ih hj
      simp only [List.length_cons]
      omega

theorem find_next_append {needle : Nat} :
    ∀ {l : List Nat} {i : Nat}, find_next needle l = some i →
      ∀ cs, find_next needle (l ++ cs) = some i := by
  intro l
  induction l with
  | nil => intro i h; simp [find_next] at h
  | cons b rest ih =>
    intro i h cs
    by_cases hb : b = needle
    · simp only [find_next, hb, if_true, ite_true, Option.some.injEq] at h
      simp [List.cons_append, find_next, hb, ← h]
    · simp only [find_next, hb, if_false, Option.map_eq_some'] at h
      obtain ⟨j, hj, hji⟩ := h
      simp only [List.cons_append, find_next, hb, if_false, Option.map_eq_some']
      exact ⟨j, ih hj cs, hji⟩

theorem find_next_eq_none {needle : Nat} :
    ∀ {l : List Nat}, needle ∉ l → find_next needle l = none := by
  intro l
  induction l with
  | nil => intro _; rfl
  | cons b rest ih =>
    intro h
    have hb : b ≠ needle := fun hc => h (hc ▸ List.mem_cons_self b rest)
    have hr : needle ∉ rest := fun hc => h (List.mem_cons_of_mem b hc)
    simp [find_next, hb, ih hr]

theorem read_into_vec_ok :
    ∀ {n : Nat} {l : List Nat}, n ≤ l.length →
      read_into_vec n l = .ok (l.take n, l.drop n) := by
  intro n
  induction n with
  | zero => intro l _; simp [read_into_vec]
  | succ m ih =>
    intro l h
    cases l with
    | nil => simp at h
    | cons b rest =>
      have hm : m ≤ rest.length := by simpa using h
      simp [read_into_vec, ih hm]

theorem read_into_vec_err :
    ∀ {n : Nat} {l : List Nat}, l.length < n →
      read_into_vec n l = .error .readBeyondEnd := by
  intro n
  induction n with
  | zero => intro l h; omega
  | succ m ih =>
    intro l h
    cases l with
    | nil => rfl
    | cons b rest =>
      have hm : rest.length < m := by simpa using h
      simp [read_into_vec, ih hm]

theorem read_into_vec_ok_inv {n : Nat} {l v rest : List Nat}
    (h : read_into_vec n l = .ok (v, rest)) :
    n ≤ l.length ∧ v = l.take n ∧ rest = l.drop n := by
  rcases le_or_lt n l.length with hle | hlt
  · rw [read_into_vec_ok hle] at h
    simp only [Except.ok.injEq, Prod.mk.injEq] at h
    exact ⟨hle, h.1.symm, h.2.symm⟩
  · rw [read_into_vec_err hlt] at h
    cases h

theorem dropLast_take {l : List Nat} {n : Nat} (h : n + 1 ≤ l.length) :
    (l.take (n + 1)).dropLast = l.take n := by
  have hn : n < l.length := by omega
  rw [List.take_succ, List.getElem?_eq_getElem hn, Option.toList_some]
  exact List.dropLast_concat

theorem is_utf8_ascii : ∀ {l : List Nat}, (∀ b ∈ l, b ≤ 127) → is_utf8 l = true := by
  intro l
  induction l with
  | nil => intro _; rfl
  | cons b rest ih =>
    intro h
    have hb : b ≤ 127 := h b (List.mem_cons_self b rest)
    have hr : ∀ x ∈ rest, x ≤ 127 := fun x hx => h x (List.mem_cons_of_mem b hx)
    simp only [is_utf8, utf8_run, hb, if_true, ite_true] at ih ⊢
    exact ih hr

theorem chomp_eq_nil {l : List Nat} (h : ∀ b ∈ l, b = 13 ∨ b = 10) : chomp l = [] := by
  unfold chomp
  have : l.reverse.dropWhile (fun b => b == 13 || b == 10) = [] := by
    rw [List.dropWhile_eq_nil_iff]
    intro x hx
    rcases h x (List.mem_reverse.mp hx) with rfl | rfl <;> decide
  rw [this]
  rfl

theorem find_next_append_last {needle : Nat} :
    ∀ {pre : List Nat}, (∀ b ∈ pre, b ≠ needle) →
      find_next needle (pre ++ [needle]) = some pre.length := by
  intro pre
  induction pre with
  | nil => intro _; simp [find_next]
  | cons b rest ih =>
    intro h
    have hb : b ≠ needle := h b (List.mem_cons_self b rest)
    have hr : ∀ x ∈ rest, x ≠ needle := fun x hx => h x (List.mem_cons_of_mem b hx)
    simp [find_next, hb, ih hr]

/-! Characterization of `read_into_string`, `read_command` and `read_header`. -/

theorem read_into_string_ok {n : Nat} {buf : List Nat} (pool : List (List Nat))
    (h : n ≤ buf.length) :
    read_into_string n buf pool =
      if is_utf8 (buf.take n) then .ok (buf.take n, buf.drop n, pool_take pool)
      else .error .notUtf8 := by
  unfold read_into_string
  rw [read_into_vec_ok h]

theorem read_command_none {fb : FrameBuffer} (h : find_next 10 fb.buffer = none) :
    read_command fb = .ok (.Incomplete, fb) := by
  simp [read_command, h]

theorem read_command_found_utf8 {fb : FrameBuffer} {i : Nat}
    (hf : find_next 10 fb.buffer = some i)
    (hu : is_utf8 (fb.buffer.take (i + 1)) = true) :
    read_command fb =
      if chomp (fb.buffer.take (i + 1)) = [] then
        .ok (.HeartBeat,
          { fb with buffer := fb.buffer.drop (i + 1),
                    string_pool := pool_attach (pool_take fb.string_pool) (chomp (fb.buffer.take (i + 1))) })
      else
        .ok (.Command (chomp (fb.buffer.take (i + 1))),
          { fb with buffer := fb.buffer.drop (i + 1),
                    string_pool := pool_take fb.string_pool }) := by
  have hlen : i + 1 ≤ fb.buffer.length := find_next_lt_length hf
  by_cases hc : chomp (fb.buffer.take (i + 1)) = [] <;>
    simp only [read_command, hf, read_into_string_ok fb.string_pool hlen, hu,
      ite_true, hc, ite_false, if_true, if_false]

theorem read_command_found_not_utf8 {fb : FrameBuffer} {i : Nat}
    (hf : find_next 10 fb.buffer = some i)
    (hu : is_utf8 (fb.buffer.take (i + 1)) = false) :
    read_command fb = .error .notUtf8 := by
  have hlen : i + 1 ≤ fb.buffer.length := find_next_lt_length hf
  simp only [read_command, hf, read_into_string_ok fb.string_pool hlen, hu,
    Bool.false_eq_true, ite_false, if_false]

theorem read_command_ok_inv {fb fb1 : FrameBuffer} {r : ReadCommandResult}
    (h : read_command fb = .ok (r, fb1)) :
    (r = .Incomplete ∧ fb1 = fb ∧ find_next 10 fb.buffer = none) ∨
    (∃ i, find_next 10 fb.buffer = some i ∧
      fb1.buffer = fb.buffer.drop (i + 1) ∧
      fb1.parse_state = fb.parse_state ∧
      r ≠ .Incomplete) := by
  cases hf : find_next 10 fb.buffer with
  | none =>
    rw [read_command_none hf] at h
    simp only [Except.ok.injEq, Prod.mk.injEq] at h
    exact Or.inl ⟨h.1.symm, h.2.symm, rfl⟩
  | some i =>
    right
    refine ⟨i, rfl, ?_⟩
    cases hu : is_utf8 (fb.buffer.take (i + 1)) with
    | false => rw [read_command_found_not_utf8 hf hu] at h; cases h
    | true =>
      rw [read_command_found_utf8 hf hu] at h
      by_cases hc : chomp (fb.buffer.take (i + 1)) = []
      · rw [if_pos hc] at h
        simp only [Except.ok.injEq, Prod.mk.injEq] at h
        obtain ⟨hr, hfb⟩ := h
        subst hfb
        exact ⟨rfl, rfl, by rw [← hr]; intro hcon; cases hcon⟩
      · rw [if_neg hc] at h
        simp only [Except.ok.injEq, Prod.mk.injEq] at h
        obtain ⟨hr, hfb⟩ := h
        subst hfb
        exact ⟨rfl, rfl, by rw [← hr]; intro hcon; cases hcon⟩

theorem read_command_incomplete {fb fb1 : FrameBuffer}
    (h : read_command fb = .ok (.Incomplete, fb1)) : fb1 = fb := by
  rcases read_command_ok_inv h with ⟨-, hfb, -⟩ | ⟨i, -, -, -, hne⟩
  · exact hfb
  · exact absurd rfl hne

theorem read_command_parse_state {fb fb1 : FrameBuffer} {r : ReadCommandResult}
    (h : read_command fb = .ok (r, fb1)) : fb1.parse_state = fb.parse_state := by
  rcases read_command_ok_inv h with ⟨-, hfb, -⟩ | ⟨i, -, -, hps, -⟩
  · rw [hfb]
  · exact hps

theorem read_command_lt {fb fb1 : FrameBuffer} {r : ReadCommandResult}
    (h : read_command fb = .ok (r, fb1)) (hr : r ≠ .Incomplete) :
    fb1.buffer.length < fb.buffer.length := by
  rcases read_command_ok_inv h with ⟨hri, -, -⟩ | ⟨i, hf, hbuf, -, -⟩
  · exact absurd hri hr
  · have hlen : i + 1 ≤ fb.buffer.length := find_next_lt_length hf
    rw [hbuf, List.length_drop]
    omega

theorem read_command_append_found {fb : FrameBuffer} {i : Nat}
    (hf : find_next 10 fb.buffer = some i) (cs : List Nat) :
    read_command (fb.append cs) =
      (read_command fb).map (fun p => (p.1, p.2.append cs)) := by
  have hlen : i + 1 ≤ fb.buffer.length := find_next_lt_length hf
  have hf2 : find_next 10 (fb.append cs).buffer = some i := by
    rw [append_buffer]; exact find_next_append hf cs
  have htake : (fb.append cs).buffer.take (i + 1) = fb.buffer.take (i + 1) := by
    rw [append_buffer]; exact List.take_append_of_le_length hlen
  cases hu : is_utf8 (fb.buffer.take (i + 1)) with
  | false =>
    rw [read_command_found_not_utf8 hf2 (htake ▸ hu), read_command_found_not_utf8 hf hu]
    rfl
  | true =>
    rw [read_command_found_utf8 hf2 (htake ▸ hu), read_command_found_utf8 hf hu, htake]
    by_cases hc : chomp (fb.buffer.take (i + 1)) = [] <;>
      simp only [hc, ite_true, ite_false, if_true, if_false, Except.map] <;>
        simp [FrameBuffer.append, List.drop_append_of_le_length hlen]

theorem read_command_append_ok {fb fb1 : FrameBuffer} {r : ReadCommandResult}
    (h : read_command fb = .ok (r, fb1)) (hr : r ≠ .Incomplete) (cs : List Nat) :
    read_command (fb.append cs) = .ok (r, fb1.append cs) := by
  rcases read_command_ok_inv h with ⟨hri, -, -⟩ | ⟨i, hf, -, -, -⟩
  · exact absurd hri hr
  · rw [read_command_append_found hf cs, h]
    rfl

theorem read_command_append_err {fb : FrameBuffer} {e : PanicMsg}
    (h : read_command fb = .error e) (cs : List Nat) :
    read_command (fb.append cs) = .error e := by
  cases hf : find_next 10 fb.buffer with
  | none => rw [read_command_none hf] at h; cases h
  | some i =>
    rw [read_command_append_found hf cs, h]
    rfl

theorem read_command_err {fb : FrameBuffer} {e : PanicMsg}
    (h : read_command fb = .error e) : e = .notUtf8 := by
  cases hf : find_next 10 fb.buffer with
  | none => rw [read_command_none hf] at h; cases h
  | some i =>
    cases hu : is_utf8 (fb.buffer.take (i + 1)) with
    | false =>
      rw [read_command_found_not_utf8 hf hu] at h
      injection h with h'
      exact h'.symm
    | true =>
      rw [read_command_found_utf8 hf hu] at h
      by_cases hc : chomp (fb.buffer.take (i + 1)) = []
      · rw [if_pos hc] at h; cases h
      · rw [if_neg hc] at h; cases h

theorem header_codec_decode_err {l : List Nat} {e : PanicMsg}
    (h : header_codec_decode l = .error e) : e = .invalidHeader := by
  unfold header_codec_decode at h
  cases hf : find_next 58 l with
  | none => rw [hf] at h; injection h with h'; exact h'.symm
  | some i => rw [hf] at h; cases h

theorem read_header_none {fb : FrameBuffer} (h : find_next 10 fb.buffer = none) :
    read_header fb = .ok (.Incomplete, fb) := by
  simp [read_header, h]

theorem read_header_found_utf8 {fb : FrameBuffer} {i : Nat}
    (hf : find_next 10 fb.buffer = some i)
    (hu : is_utf8 (fb.buffer.take (i + 1)) = true) :
    read_header fb =
      if chomp (fb.buffer.take (i + 1)) = [] then
        .ok (.EndOfHeaders,
          { fb with buffer := fb.buffer.drop (i + 1),
                    string_pool := pool_attach (pool_take fb.string_pool) (chomp (fb.buffer.take (i + 1))) })
      else
        match header_codec_decode (chomp (fb.buffer.take (i + 1))) with
        | .error e => .error e
        | .ok header =>
          .ok (.Header header,
            { fb with buffer := fb.buffer.drop (i + 1),
                      string_pool := pool_attach (pool_take fb.string_pool) (chomp (fb.buffer.take (i + 1))) }) := by
  have hlen : i + 1 ≤ fb.buffer.length := find_next_lt_length hf
  by_cases hc : chomp (fb.buffer.take (i + 1)) = [] <;>
    simp only [read_header, hf, read_into_string_ok fb.string_pool hlen, hu,
      ite_true, hc, ite_false, if_true, if_false]

theorem read_header_found_not_utf8 {fb : FrameBuffer} {i : Nat}
    (hf : find_next 10 fb.buffer = some i)
    (hu : is_utf8 (fb.buffer.take (i + 1)) = false) :
    read_header fb = .error .notUtf8 := by
  have hlen : i + 1 ≤ fb.buffer.length := find_next_lt_length hf
  simp only [read_header, hf, read_into_string_ok fb.string_pool hlen, hu,
    Bool.false_eq_true, ite_false, if_false]

theorem read_header_ok_inv {fb fb1 : FrameBuffer} {r : ReadHeaderResult}
    (h : read_header fb = .ok (r, fb1)) :
    (r = .Incomplete ∧ fb1 = fb ∧ find_next 10 fb.buffer = none) ∨
    (∃ i, find_next 10 fb.buffer = some i ∧
      fb1.buffer = fb.buffer.drop (i + 1) ∧
      fb1.parse_state = fb.parse_state ∧
      r ≠ .Incomplete) := by
  cases hf : find_next 10 fb.buffer with
  | none =>
    rw [read_header_none hf] at h
    simp only [Except.ok.injEq, Prod.mk.injEq] at h
    exact Or.inl ⟨h.1.symm, h.2.symm, rfl⟩
  | some i =>
    right
    refine ⟨i, rfl, ?_⟩
    cases hu : is_utf8 (fb.buffer.take (i + 1)) with
    | false => rw [read_header_found_not_utf8 hf hu] at h; cases h
    | true =>
      rw [read_header_found_utf8 hf hu] at h
      by_cases hc : chomp (fb.buffer.take (i + 1)) = []
      · rw [if_pos hc] at h
        simp only [Except.ok.injEq, Prod.mk.injEq] at h
        obtain ⟨hr, hfb⟩ := h
        subst hfb
        exact ⟨rfl, rfl, by rw [← hr]; intro hcon; cases hcon⟩
      · rw [if_neg hc] at h
        cases hd : header_codec_decode (chomp (fb.buffer.take (i + 1))) with
        | error e => rw [hd] at h; cases h
        | ok header =>
          rw [hd] at h
          simp only [Except.ok.injEq, Prod.mk.injEq] at h
          obtain ⟨hr, hfb⟩ := h
          subst hfb
          exact ⟨rfl, rfl, by rw [← hr]; intro hcon; cases hcon⟩

theorem read_header_incomplete {fb fb1 : FrameBuffer}
    (h : read_header fb = .ok (.Incomplete, fb1)) : fb1 = fb := by
  rcases read_header_ok_inv h with ⟨-, hfb, -⟩ | ⟨i, -, -, -, hne⟩
  · exact hfb
  · exact absurd rfl hne

theorem read_header_parse_state {fb fb1 : FrameBuffer} {r : ReadHeaderResult}
    (h : read_header fb = .ok (r, fb1)) : fb1.parse_state = fb.parse_state := by
  rcases read_header_ok_inv h with ⟨-, hfb, -⟩ | ⟨i, -, -, hps, -⟩
  · rw [hfb]
  · exact hps

theorem read_header_lt {fb fb1 : FrameBuffer} {r : ReadHeaderResult}
    (h : read_header fb = .ok (r, fb1)) (hr : r ≠ .Incomplete) :
    fb1.buffer.length < fb.buffer.length := by
  rcases read_header_ok_inv h with ⟨hri, -, -⟩ | ⟨i, hf, hbuf, -, -⟩
  · exact absurd hri hr
  · have hlen : i + 1 ≤ fb.buffer.length := find_next_lt_length hf
    rw [hbuf, List.length_drop]
    omega

theorem read_header_append_found {fb : FrameBuffer} {i : Nat}
    (hf : find_next 10 fb.buffer = some i) (cs : List Nat) :
    read_header (fb.append cs) =
      (read_header fb).map (fun p => (p.1, p.2.append cs)) := by
  have hlen : i + 1 ≤ fb.buffer.length := find_next_lt_length hf
  have hf2 : find_next 10 (fb.append cs).buffer = some i := by
    rw [append_buffer]; exact find_next_append hf cs
  have htake : (fb.append cs).buffer.take (i + 1) = fb.buffer.take (i + 1) := by
    rw [append_buffer]; exact List.take_append_of_le_length hlen
  cases hu : is_utf8 (fb.buffer.take (i + 1)) with
  | false =>
    rw [read_header_found_not_utf8 hf2 (htake ▸ hu), read_header_found_not_utf8 hf hu]
    rfl
  | true =>
    rw [read_header_found_utf8 hf2 (htake ▸ hu), read_header_found_utf8 hf hu, htake]
    by_cases hc : chomp (fb.buffer.take (i + 1)) = []
    · simp only [hc, ite_true, if_true, Except.map]
      simp [FrameBuffer.append, List.drop_append_of_le_length hlen]
    · simp only [hc, ite_false, if_false]
      cases hd : header_codec_decode (chomp (fb.buffer.take (i + 1))) with
      | error e => rfl
      | ok header =>
        simp only [Except.map]
        simp [FrameBuffer.append, List.drop_append_of_le_length hlen]

theorem read_header_append_ok {fb fb1 : FrameBuffer} {r : ReadHeaderResult}
    (h : read_header fb = .ok (r, fb1)) (hr : r ≠ .Incomplete) (cs : List Nat) :
    read_header (fb.append cs) = .ok (r, fb1.append cs) := by
  rcases read_header_ok_inv h with ⟨hri, -, -⟩ | ⟨i, hf, -, -, -⟩
  · exact absurd hri hr
  · rw [read_header_append_found hf cs, h]
    rfl

theorem read_header_append_err {fb : FrameBuffer} {e : PanicMsg}
    (h : read_header fb = .error e) (cs : List Nat) :
    read_header (fb.append cs) = .error e := by
  cases hf : find_next 10 fb.buffer with
  | none => rw [read_header_none hf] at h; cases h
  | some i =>
    rw [read_header_append_found hf cs, h]
    rfl

theorem read_header_err {fb : FrameBuffer} {e : PanicMsg}
    (h : read_header fb = .error e) : e = .notUtf8 ∨ e = .invalidHeader := by
  cases hf : find_next 10 fb.buffer with
  | none => rw [read_header_none hf] at h; cases h
  | some i =>
    cases hu : is_utf8 (fb.buffer.take (i + 1)) with
    | false =>
      rw [read_header_found_not_utf8 hf hu] at h
      injection h with h'
      exact Or.inl h'.symm
    | true =>
      rw [read_header_found_utf8 hf hu] at h
      by_cases hc : chomp (fb.buffer.take (i + 1)) = []
      · rw [if_pos hc] at h; cases h
      · rw [if_neg hc] at h
        cases hd : header_codec_decode (chomp (fb.buffer.take (i + 1))) with
        | error e2 =>
          rw [hd] at h
          injection h with h'
          exact Or.inr (h' ▸ header_codec_decode_err hd)
        | ok header => rw [hd] at h; cases h

/-! Characterization of the two body-delimiting strategies and
`resume_parsing_at_body`. -/

theorem read_body_by_cl_insufficient {fb : FrameBuffer} {L : Nat}
    (h : fb.buffer.length < L + 1) :
    read_body_by_content_length fb L = .ok (none, fb) := by
  simp [read_body_by_content_length, h]

theorem read_body_by_cl_sufficient {fb : FrameBuffer} {L : Nat}
    (h : L + 1 ≤ fb.buffer.length) :
    read_body_by_content_length fb L =
      .ok (some ((fb.buffer.take (L + 1)).dropLast),
           { fb with buffer := fb.buffer.drop (L + 1) }) := by
  have hn : ¬ fb.buffer.length < L + 1 := by omega
  simp only [read_body_by_content_length, hn, ite_false, if_false, read_into_vec_ok h]

theorem read_body_by_null_none {fb : FrameBuffer}
    (h : find_next 0 fb.buffer = none) :
    read_body_by_null_octet fb = .ok (none, fb) := by
  simp [read_body_by_null_octet, h]

theorem read_body_by_null_found {fb : FrameBuffer} {i : Nat}
    (h : find_next 0 fb.buffer = some i) :
    read_body_by_null_octet fb =
      .ok (some ((fb.buffer.take (i + 1)).dropLast),
           { fb with buffer := fb.buffer.drop (i + 1) }) := by
  have hlen : i + 1 ≤ fb.buffer.length := find_next_lt_length h
  simp only [read_body_by_null_octet, h, read_into_vec_ok hlen]

theorem read_body_ok_inv {fb fb1 : FrameBuffer} {mb : Option (List Nat)}
    (h : read_body fb = .ok (mb, fb1)) :
    (mb = none ∧ fb1 = fb) ∨
    (∃ k body, mb = some body ∧ 1 ≤ k ∧ k ≤ fb.buffer.length ∧
      body = (fb.buffer.take k).dropLast ∧
      fb1 = { fb with buffer := fb.buffer.drop k }) := by
  cases hcl : get_content_length fb.parse_state.headers with
  | some L =>
    simp only [read_body, hcl] at h
    rcases le_or_lt (L + 1) fb.buffer.length with hge | hlt
    · rw [read_body_by_cl_sufficient hge] at h
      simp only [Except.ok.injEq, Prod.mk.injEq] at h
      exact Or.inr ⟨L + 1, _, h.1.symm, by omega, hge, rfl, h.2.symm⟩
    · rw [read_body_by_cl_insufficient hlt] at h
      simp only [Except.ok.injEq, Prod.mk.injEq] at h
      exact Or.inl ⟨h.1.symm, h.2.symm⟩
  | none =>
    simp only [read_body, hcl] at h
    cases hf : find_next 0 fb.buffer with
    | none =>
      rw [read_body_by_null_none hf] at h
      simp only [Except.ok.injEq, Prod.mk.injEq] at h
      exact Or.inl ⟨h.1.symm, h.2.symm⟩
    | some i =>
      rw [read_body_by_null_found hf] at h
      simp only [Except.ok.injEq, Prod.mk.injEq] at h
      have hlen : i + 1 ≤ fb.buffer.length := find_next_lt_length hf
      exact Or.inr ⟨i + 1, _, h.1.symm, by omega, hlen, rfl, h.2.symm⟩

theorem read_body_none {fb fb1 : FrameBuffer}
    (h : read_body fb = .ok (none, fb1)) : fb1 = fb := by
  rcases read_body_ok_inv h with ⟨-, hfb⟩ | ⟨k, body, hsome, -, -, -, -⟩
  · exact hfb
  · cases hsome

theorem read_body_parse_state {fb fb1 : FrameBuffer} {mb : Option (List Nat)}
    (h : read_body fb = .ok (mb, fb1)) : fb1.parse_state = fb.parse_state := by
  rcases read_body_ok_inv h with ⟨-, hfb⟩ | ⟨k, body, -, -, -, -, hfb⟩ <;> rw [hfb]

theorem read_body_some_lt {fb fb1 : FrameBuffer} {body : List Nat}
    (h : read_body fb = .ok (some body, fb1)) :
    fb1.buffer.length < fb.buffer.length := by
  rcases read_body_ok_inv h with ⟨hn, -⟩ | ⟨k, body2, -, hk1, hk2, -, hfb⟩
  · cases hn
  · rw [hfb]
    simp only [List.length_drop]
    omega

theorem read_body_no_error {fb : FrameBuffer} {e : PanicMsg}
    (h : read_body fb = .error e) : False := by
  cases hcl : get_content_length fb.parse_state.headers with
  | some L =>
    simp only [read_body, hcl] at h
    rcases le_or_lt (L + 1) fb.buffer.length with hge | hlt
    · rw [read_body_by_cl_sufficient hge] at h; cases h
    · rw [read_body_by_cl_insufficient hlt] at h; cases h
  | none =>
    simp only [read_body, hcl] at h
    cases hf : find_next 0 fb.buffer with
    | none => rw [read_body_by_null_none hf] at h; cases h
    | some i => rw [read_body_by_null_found hf] at h; cases h

theorem read_body_some_append {fb fb1 : FrameBuffer} {body : List Nat}
    (h : read_body fb = .ok (some body, fb1)) (cs : List Nat) :
    read_body (fb.append cs) = .ok (some body, fb1.append cs) := by
  cases hcl : get_content_length fb.parse_state.headers with
  | some L =>
    have hcl2 : get_content_length (fb.append cs).parse_state.headers = some L := hcl
    simp only [read_body, hcl, hcl2] at h ⊢
    rcases le_or_lt (L + 1) fb.buffer.length with hge | hlt
    · rw [read_body_by_cl_sufficient hge] at h
      simp only [Except.ok.injEq, Prod.mk.injEq, Option.some.injEq] at h
      obtain ⟨hbody, hfb⟩ := h
      subst hbody
      subst hfb
      have hge2 : L + 1 ≤ (fb.append cs).buffer.length := by
        rw [append_buffer]; simp only [List.length_append]; omega
      rw [read_body_by_cl_sufficient hge2]
      simp only [append_buffer, List.take_append_of_le_length hge,
        List.drop_append_of_le_length hge]
      simp [FrameBuffer.append]
    · rw [read_body_by_cl_insufficient hlt] at h
      simp at h
  | none =>
    have hcl2 : get_content_length (fb.append cs).parse_state.headers = none := hcl
    simp only [read_body, hcl, hcl2] at h ⊢
    cases hf : find_next 0 fb.buffer with
    | none => rw [read_body_by_null_none hf] at h; simp at h
    | some i =>
      rw [read_body_by_null_found hf] at h
      simp only [Except.ok.injEq, Prod.mk.injEq, Option.some.injEq] at h
      obtain ⟨hbody, hfb⟩ := h
      subst hbody
      subst hfb
      have hlen : i + 1 ≤ fb.buffer.length := find_next_lt_length hf
      have hf2 : find_next 0 (fb.append cs).buffer = some i := by
        rw [append_buffer]; exact find_next_append hf cs
      rw [read_body_by_null_found hf2]
      simp only [append_buffer, List.take_append_of_le_length hlen,
        List.drop_append_of_le_length hlen]
      simp [FrameBuffer.append]

theorem rpb_none {fb fb1 : FrameBuffer}
    (h : resume_parsing_at_body fb = .ok (none, fb1)) : fb1 = fb := by
  cases hrb : read_body fb with
  | error e => exact (read_body_no_error hrb).elim
  | ok p =>
    obtain ⟨mb, fbB⟩ := p
    cases mb with
    | none =>
      simp only [resume_parsing_at_body, hrb] at h
      simp only [Except.ok.injEq, Prod.mk.injEq] at h
      rw [← h.2]
      exact read_body_none hrb
    | some body =>
      cases hcmd : fbB.parse_state.command with
      | none => simp only [resume_parsing_at_body, hrb, hcmd] at h; cases h
      | some c => simp only [resume_parsing_at_body, hrb, hcmd] at h; simp at h

theorem rpb_some_inv {fb fb1 : FrameBuffer} {t : Transmission}
    (h : resume_parsing_at_body fb = .ok (some t, fb1)) :
    fb1.parse_state = { command := none, headers := [], phase := .Command } ∧
    fb1.buffer.length < fb.buffer.length := by
  cases hrb : read_body fb with
  | error e => exact (read_body_no_error hrb).elim
  | ok p =>
    obtain ⟨mb, fbB⟩ := p
    cases mb with
    | none => simp only [resume_parsing_at_body, hrb] at h; simp at h
    | some body =>
      cases hcmd : fbB.parse_state.command with
      | none => simp only [resume_parsing_at_body, hrb, hcmd] at h; cases h
      | some c =>
        simp only [resume_parsing_at_body, hrb, hcmd] at h
        simp only [Except.ok.injEq, Prod.mk.injEq] at h
        have hlt := read_body_some_lt hrb
        rw [← h.2]
        exact ⟨rfl, hlt⟩

theorem rpb_err {fb : FrameBuffer} {e : PanicMsg}
    (h : resume_parsing_at_body fb = .error e) :
    e = .noCommand ∧ fb.parse_state.command = none := by
  cases hrb : read_body fb with
  | error e2 => exact (read_body_no_error hrb).elim
  | ok p =>
    obtain ⟨mb, fbB⟩ := p
    cases mb with
    | none => simp only [resume_parsing_at_body, hrb] at h; cases h
    | some body =>
      cases hcmd : fbB.parse_state.command with
      | some c => simp only [resume_parsing_at_body, hrb, hcmd] at h; cases h
      | none =>
        simp only [resume_parsing_at_body, hrb, hcmd] at h
        injection h with h'
        refine ⟨h'.symm, ?_⟩
        rw [← read_body_parse_state hrb]
        exact hcmd

theorem rpb_some_append {fb fb1 : FrameBuffer} {t : Transmission}
    (h : resume_parsing_at_body fb = .ok (some t, fb1)) (cs : List Nat) :
    resume_parsing_at_body (fb.append cs) = .ok (some t, fb1.append cs) := by
  cases hrb : read_body fb with
  | error e => exact (read_body_no_error hrb).elim
  | ok p =>
    obtain ⟨mb, fbB⟩ := p
    cases mb with
    | none => simp only [resume_parsing_at_body, hrb] at h; simp at h
    | some body =>
      cases hcmd : fbB.parse_state.command with
      | none => simp only [resume_parsing_at_body, hrb, hcmd] at h; cases h
      | some c =>
        simp only [resume_parsing_at_body, hrb, hcmd] at h
        simp only [Except.ok.injEq, Prod.mk.injEq, Option.some.injEq] at h
        obtain ⟨ht, hfb⟩ := h
        subst ht
        subst hfb
        have hcmd2 : (fbB.append cs).parse_state.command = some c := hcmd
        simp only [resume_parsing_at_body, read_body_some_append hrb cs, hcmd2]
        rfl

theorem rpb_err_append {fb : FrameBuffer} {e : PanicMsg}
    (h : resume_parsing_at_body fb = .error e) (cs : List Nat) :
    resume_parsing_at_body (fb.append cs) = .error e := by
  cases hrb : read_body fb with
  | error e2 => exact (read_body_no_error hrb).elim
  | ok p =>
    obtain ⟨mb, fbB⟩ := p
    cases mb with
    | none => simp only [resume_parsing_at_body, hrb] at h; cases h
    | some body =>
      cases hcmd : fbB.parse_state.command with
      | some c => simp only [resume_parsing_at_body, hrb, hcmd] at h; cases h
      | none =>
        simp only [resume_parsing_at_body, hrb, hcmd] at h
        injection h with h'
        subst h'
        have hcmd2 : (fbB.append cs).parse_state.command = none := hcmd
        simp only [resume_parsing_at_body, read_body_some_append hrb cs, hcmd2]

/-! The header-reading loop: fuel adequacy, unfolding equation, and its
behavior under appends. -/

theorem resume_headers_fuel_congr :
    ∀ {f1 f2 : Nat} {fb : FrameBuffer},
      fb.buffer.length < f1 → fb.buffer.length < f2 →
      resume_headers_fuel f1 fb = resume_headers_fuel f2 fb := by
  intro f1
  induction f1 with
  | zero => intro f2 fb h1 h2; omega
  | succ m ih =>
    intro f2 fb h1 h2
    cases f2 with
    | zero => omega
    | succ k =>
      simp only [resume_headers_fuel]
      cases hrh : read_header fb with
      | error e => rfl
      | ok p =>
        obtain ⟨r, fb1⟩ := p
        cases r with
        | Header hd =>
          have hlt := read_header_lt hrh (fun hcon => by cases hcon)
          have hb : (push_header fb1 hd).buffer.length = fb1.buffer.length := rfl
          exact ih (by rw [hb]; omega) (by rw [hb]; omega)
        | EndOfHeaders => rfl
        | Incomplete => rfl

theorem rph_eq (fb : FrameBuffer) :
    resume_parsing_at_headers fb =
      match read_header fb with
      | .error e => .error e
      | .ok (.Header hd, fb1) => resume_parsing_at_headers (push_header fb1 hd)
      | .ok (.EndOfHeaders, fb1) => resume_parsing_at_body (to_body_phase fb1)
      | .ok (.Incomplete, fb1) => .ok (none, fb1) := by
  show resume_headers_fuel (fb.buffer.length + 1) fb = _
  simp only [resume_headers_fuel]
  cases hrh : read_header fb with
  | error e => rfl
  | ok p =>
    obtain ⟨r, fb1⟩ := p
    cases r with
    | Header hd =>
      have hlt := read_header_lt hrh (fun hcon => by cases hcon)
      have hb : (push_header fb1 hd).buffer.length = fb1.buffer.length := rfl
      exact resume_headers_fuel_congr (by rw [hb]; omega) (by rw [hb]; omega)
    | EndOfHeaders => rfl
    | Incomplete => rfl

theorem tx_phase_command {fb : FrameBuffer} (h : fb.parse_state.phase = .Command) :
    read_transmission fb = resume_parsing_at_command fb := by
  simp only [read_transmission, h]

theorem tx_phase_headers {fb : FrameBuffer} (h : fb.parse_state.phase = .Headers) :
    read_transmission fb = resume_parsing_at_headers fb := by
  simp only [read_transmission, h]

theorem tx_phase_body {fb : FrameBuffer} (h : fb.parse_state.phase = .Body) :
    read_transmission fb = resume_parsing_at_body fb := by
  simp only [read_transmission, h]

theorem rph_some_append_aux :
    ∀ (n : Nat) (fb : FrameBuffer), fb.buffer.length ≤ n →
      ∀ {t : Transmission} {fb1 : FrameBuffer},
        resume_parsing_at_headers fb = .ok (some t, fb1) →
        ∀ cs, resume_parsing_at_headers (fb.append cs) = .ok (some t, fb1.append cs) := by
  intro n
  induction n with
  | zero =>
    intro fb hn t fb1 h cs
    have hbuf : fb.buffer = [] := List.length_eq_zero.mp (Nat.le_zero.mp hn)
    have hrh : read_header fb = .ok (.Incomplete, fb) :=
      read_header_none (by rw [hbuf]; rfl)
    rw [rph_eq fb] at h
    simp only [hrh] at h
    simp at h
  | succ m ih =>
    intro fb hn t fb1 h cs
    rw [rph_eq fb] at h
    cases hrh : read_header fb with
    | error e =>
      simp only [hrh] at h
      exact Except.noConfusion h
    | ok p =>
      obtain ⟨r, fb2⟩ := p
      cases r with
      | Incomplete =>
        simp only [hrh] at h
        simp at h
      | Header hd =>
        simp only [hrh] at h
        have hlt := read_header_lt hrh (fun hcon => by cases hcon)
        have hb : (push_header fb2 hd).buffer.length = fb2.buffer.length := rfl
        have hrec := ih (push_header fb2 hd) (by rw [hb]; omega) h cs
        rw [rph_eq (fb.append cs), read_header_append_ok hrh (fun hcon => by cases hcon) cs]
        exact hrec
      | EndOfHeaders =>
        simp only [hrh] at h
        rw [rph_eq (fb.append cs), read_header_append_ok hrh (fun hcon => by cases hcon) cs]
        exact rpb_some_append h cs

theorem rph_some_append {fb fb1 : FrameBuffer} {t : Transmission}
    (h : resume_parsing_at_headers fb = .ok (some t, fb1)) (cs : List Nat) :
    resume_parsing_at_headers (fb.append cs) = .ok (some t, fb1.append cs) :=
  rph_some_append_aux fb.buffer.length fb le_rfl h cs

theorem rph_err_append_aux :
    ∀ (n : Nat) (fb : FrameBuffer), fb.buffer.length ≤ n →
      ∀ {e : PanicMsg},
        resume_parsing_at_headers fb = .error e →
        ∀ cs, resume_parsing_at_headers (fb.append cs) = .error e := by
  intro n
  induction n with
  | zero =>
    intro fb hn e h cs
    have hbuf : fb.buffer = [] := List.length_eq_zero.mp (Nat.le_zero.mp hn)
    have hrh : read_header fb = .ok (.Incomplete, fb) :=
      read_header_none (by rw [hbuf]; rfl)
    rw [rph_eq fb] at h
    simp only [hrh] at h
    exact Except.noConfusion h
  | succ m ih =>
    intro fb hn e h cs
    rw [rph_eq fb] at h
    cases hrh : read_header fb with
    | error e2 =>
      simp only [hrh] at h
      injection h with h'
      subst h'
      rw [rph_eq (fb.append cs), read_header_append_err hrh cs]
    | ok p =>
      obtain ⟨r, fb2⟩ := p
      cases r with
      | Incomplete =>
        simp only [hrh] at h
        exact Except.noConfusion h
      | Header hd =>
        simp only [hrh] at h
        have hlt := read_header_lt hrh (fun hcon => by cases hcon)
        have hb : (push_header fb2 hd).buffer.length = fb2.buffer.length := rfl
        have hrec := ih (push_header fb2 hd) (by rw [hb]; omega) h cs
        rw [rph_eq (fb.append cs), read_header_append_ok hrh (fun hcon => by cases hcon) cs]
        exact hrec
      | EndOfHeaders =>
        simp only [hrh] at h
        rw [rph_eq (fb.append cs), read_header_append_ok hrh (fun hcon => by cases hcon) cs]
        exact rpb_err_append h cs

theorem rph_err_append {fb : FrameBuffer} {e : PanicMsg}
    (h : resume_parsing_at_headers fb = .error e) (cs : List Nat) :
    resume_parsing_at_headers (fb.append cs) = .error e :=
  rph_err_append_aux fb.buffer.length fb le_rfl h cs

theorem rph_none_append_aux :
    ∀ (n : Nat) (fb : FrameBuffer), fb.buffer.length ≤ n →
      ∀ {fb1 : FrameBuffer},
        resume_parsing_at_headers fb = .ok (none, fb1) →
        fb.parse_state.phase = .Headers →
        ∀ cs, resume_parsing_at_headers (fb.append cs) = read_transmission (fb1.append cs) := by
  intro n
  induction n with
  | zero =>
    intro fb hn fb1 h hph cs
    have hbuf : fb.buffer = [] := List.length_eq_zero.mp (Nat.le_zero.mp hn)
    have hrh : read_header fb = .ok (.Incomplete, fb) :=
      read_header_none (by rw [hbuf]; rfl)
    rw [rph_eq fb] at h
    simp only [hrh] at h
    simp only [Except.ok.injEq, Prod.mk.injEq] at h
    rw [← h.2]
    have hph2 : (fb.append cs).parse_state.phase = .Headers := hph
    rw [tx_phase_headers hph2]
  | succ m ih =>
    intro fb hn fb1 h hph cs
    rw [rph_eq fb] at h
    cases hrh : read_header fb with
    | error e =>
      simp only [hrh] at h
      exact Except.noConfusion h
    | ok p =>
      obtain ⟨r, fb2⟩ := p
      cases r with
      | Incomplete =>
        simp only [hrh] at h
        simp only [Except.ok.injEq, Prod.mk.injEq] at h
        have hfb2 : fb2 = fb := read_header_incomplete hrh
        rw [← h.2, hfb2]
        have hph2 : (fb.append cs).parse_state.phase = .Headers := hph
        rw [tx_phase_headers hph2]
      | Header hd =>
        simp only [hrh] at h
        have hlt := read_header_lt hrh (fun hcon => by cases hcon)
        have hb : (push_header fb2 hd).buffer.length = fb2.buffer.length := rfl
        have hph2 : (push_header fb2 hd).parse_state.phase = .Headers := by
          show fb2.parse_state.phase = .Headers
          rw [read_header_parse_state hrh]
          exact hph
        have hrec := ih (push_header fb2 hd) (by rw [hb]; omega) h hph2 cs
        rw [rph_eq (fb.append cs), read_header_append_ok hrh (fun hcon => by cases hcon) cs]
        exact hrec
      | EndOfHeaders =>
        simp only [hrh] at h
        have hfb1 : fb1 = to_body_phase fb2 := rpb_none h
        rw [rph_eq (fb.append cs), read_header_append_ok hrh (fun hcon => by cases hcon) cs]
        have hph2 : (fb1.append cs).parse_state.phase = .Body := by
          rw [append_parse_state, hfb1]
          rfl
        rw [tx_phase_body hph2]
        show resume_parsing_at_body ((to_body_phase fb2).append cs) = _
        rw [hfb1]

theorem rph_none_append {fb fb1 : FrameBuffer}
    (h : resume_parsing_at_headers fb = .ok (none, fb1))
    (hph : fb.parse_state.phase = .Headers) (cs : List Nat) :
    resume_parsing_at_headers (fb.append cs) = read_transmission (fb1.append cs) :=
  rph_none_append_aux fb.buffer.length fb le_rfl h hph cs

theorem rph_some_lt_aux :
    ∀ (n : Nat) (fb : FrameBuffer), fb.buffer.length ≤ n →
      ∀ {t : Transmission} {fb1 : FrameBuffer},
        resume_parsing_at_headers fb = .ok (some t, fb1) →
        fb1.buffer.length < fb.buffer.length := by
  intro n
  induction n with
  | zero =>
    intro fb hn t fb1 h
    have hbuf : fb.buffer = [] := List.length_eq_zero.mp (Nat.le_zero.mp hn)
    have hrh : read_header fb = .ok (.Incomplete, fb) :=
      read_header_none (by rw [hbuf]; rfl)
    rw [rph_eq fb] at h
    simp only [hrh] at h
    simp at h
  | succ m ih =>
    intro fb hn t fb1 h
    rw [rph_eq fb] at h
    cases hrh : read_header fb with
    | error e =>
      simp only [hrh] at h
      exact Except.noConfusion h
    | ok p =>
      obtain ⟨r, fb2⟩ := p
      cases r with
      | Incomplete =>
        simp only [hrh] at h
        simp at h
      | Header hd =>
        simp only [hrh] at h
        have hlt := read_header_lt hrh (fun hcon => by cases hcon)
        have hb : (push_header fb2 hd).buffer.length = fb2.buffer.length := rfl
        have hrec := ih (push_header fb2 hd) (by rw [hb]; omega) h
        rw [hb] at hrec
        omega
      | EndOfHeaders =>
        simp only [hrh] at h
        have hlt := read_header_lt hrh (fun hcon => by cases hcon)
        have hlt2 := (rpb_some_inv h).2
        have hb : (to_body_phase fb2).buffer.length = fb2.buffer.length := rfl
        rw [hb] at hlt2
        omega

theorem rph_some_lt {fb fb1 : FrameBuffer} {t : Transmission}
    (h : resume_parsing_at_headers fb = .ok (some t, fb1)) :
    fb1.buffer.length < fb.buffer.length :=
  rph_some_lt_aux fb.buffer.length fb le_rfl h

theorem rph_err_char_aux :
    ∀ (n : Nat) (fb : FrameBuffer), fb.buffer.length ≤ n →
      ∀ {e : PanicMsg},
        resume_parsing_at_headers fb = .error e →
        e = .notUtf8 ∨ e = .invalidHeader ∨
          (e = .noCommand ∧ fb.parse_state.command = none) := by
  intro n
  induction n with
  | zero =>
    intro fb hn e h
    have hbuf : fb.buffer = [] := List.length_eq_zero.mp (Nat.le_zero.mp hn)
    have hrh : read_header fb = .ok (.Incomplete, fb) :=
      read_header_none (by rw [hbuf]; rfl)
    rw [rph_eq fb] at h
    simp only [hrh] at h
    exact Except.noConfusion h
  | succ m ih =>
    intro fb hn e h
    rw [rph_eq fb] at h
    cases hrh : read_header fb with
    | error e2 =>
      simp only [hrh] at h
      injection h with h'
      subst h'
      rcases read_header_err hrh with h1 | h2
      · exact Or.inl h1
      · exact Or.inr (Or.inl h2)
    | ok p =>
      obtain ⟨r, fb2⟩ := p
      cases r with
      | Incomplete =>
        simp only [hrh] at h
        exact Except.noConfusion h
      | Header hd =>
        simp only [hrh] at h
        have hlt := read_header_lt hrh (fun hcon => by cases hcon)
        have hb : (push_header fb2 hd).buffer.length = fb2.buffer.length := rfl
        rcases ih (push_header fb2 hd) (by rw [hb]; omega) h with h1 | h2 | ⟨h3, hcmd⟩
        · exact Or.inl h1
        · exact Or.inr (Or.inl h2)
        · refine Or.inr (Or.inr ⟨h3, ?_⟩)
          have : (push_header fb2 hd).parse_state.command = fb2.parse_state.command := rfl
          rw [this, read_header_parse_state hrh] at hcmd
          exact hcmd
      | EndOfHeaders =>
        simp only [hrh] at h
        obtain ⟨he, hcmd⟩ := rpb_err h
        refine Or.inr (Or.inr ⟨he, ?_⟩)
        have : (to_body_phase fb2).parse_state.command = fb2.parse_state.command := rfl
        rw [this, read_header_parse_state hrh] at hcmd
        exact hcmd

theorem rph_err_char {fb : FrameBuffer} {e : PanicMsg}
    (h : resume_parsing_at_headers fb = .error e) :
    e = .notUtf8 ∨ e = .invalidHeader ∨
      (e = .noCommand ∧ fb.parse_state.command = none) :=
  rph_err_char_aux fb.buffer.length fb le_rfl h

theorem rph_inv9_aux :
    ∀ (n : Nat) (fb : FrameBuffer), fb.buffer.length ≤ n →
      ∀ {r : Option Transmission} {fb1 : FrameBuffer},
        resume_parsing_at_headers fb = .ok (r, fb1) →
        fb.parse_state.command ≠ none →
        CommandPresentInv fb1 := by
  intro n
  induction n with
  | zero =>
    intro fb hn r fb1 h hcmd
    have hbuf : fb.buffer = [] := List.length_eq_zero.mp (Nat.le_zero.mp hn)
    have hrh : read_header fb = .ok (.Incomplete, fb) :=
      read_header_none (by rw [hbuf]; rfl)
    rw [rph_eq fb] at h
    simp only [hrh] at h
    simp only [Except.ok.injEq, Prod.mk.injEq] at h
    rw [← h.2]
    intro _
    exact hcmd
  | succ m ih =>
    intro fb hn r fb1 h hcmd
    rw [rph_eq fb] at h
    cases hrh : read_header fb with
    | error e =>
      simp only [hrh] at h
      exact Except.noConfusion h
    | ok p =>
      obtain ⟨r2, fb2⟩ := p
      cases r2 with
      | Incomplete =>
        simp only [hrh] at h
        simp only [Except.ok.injEq, Prod.mk.injEq] at h
        have hfb2 : fb2 = fb := read_header_incomplete hrh
        rw [← h.2, hfb2]
        intro _
        exact hcmd
      | Header hd =>
        simp only [hrh] at h
        have hlt := read_header_lt hrh (fun hcon => by cases hcon)
        have hb : (push_header fb2 hd).buffer.length = fb2.buffer.length := rfl
        have hcmd2 : (push_header fb2 hd).parse_state.command ≠ none := by
          show fb2.parse_state.command ≠ none
          rw [read_header_parse_state hrh]
          exact hcmd
        exact ih (push_header fb2 hd) (by rw [hb]; omega) h hcmd2
      | EndOfHeaders =>
        simp only [hrh] at h
        cases r with
        | none =>
          have hfb1 : fb1 = to_body_phase fb2 := rpb_none h
          rw [hfb1]
          intro _
          show fb2.parse_state.command ≠ none
          rw [read_header_parse_state hrh]
          exact hcmd
        | some t =>
          obtain ⟨hps, -⟩ := rpb_some_inv h
          intro hph
          rw [hps] at hph
          simp at hph

theorem rph_inv9 {fb fb1 : FrameBuffer} {r : Option Transmission}
    (h : resume_parsing_at_headers fb = .ok (r, fb1))
    (hcmd : fb.parse_state.command ≠ none) :
    CommandPresentInv fb1 :=
  rph_inv9_aux fb.buffer.length fb le_rfl h hcmd

/-! `resume_parsing_at_command` and `read_transmission` under appends. -/

theorem inv9_ps_congr {fb fb1 : FrameBuffer}
    (h : fb1.parse_state = fb.parse_state) (hi : CommandPresentInv fb) :
    CommandPresentInv fb1 := by
  unfold CommandPresentInv at hi ⊢
  rw [h]
  exact hi

theorem rpc_some_append {fb fb1 : FrameBuffer} {t : Transmission}
    (h : resume_parsing_at_command fb = .ok (some t, fb1)) (cs : List Nat) :
    resume_parsing_at_command (fb.append cs) = .ok (some t, fb1.append cs) := by
  cases hrc : read_command fb with
  | error e =>
    simp only [resume_parsing_at_command, hrc] at h
    exact Except.noConfusion h
  | ok p =>
    obtain ⟨r, fb2⟩ := p
    cases r with
    | Incomplete =>
      simp only [resume_parsing_at_command, hrc] at h
      simp at h
    | HeartBeat =>
      simp only [resume_parsing_at_command, hrc] at h
      simp only [Except.ok.injEq, Prod.mk.injEq, Option.some.injEq] at h
      obtain ⟨ht, hfb⟩ := h
      subst ht
      subst hfb
      simp only [resume_parsing_at_command,
        read_command_append_ok hrc (fun hcon => by cases hcon) cs]
    | Command c =>
      simp only [resume_parsing_at_command, hrc] at h
      simp only [resume_parsing_at_command,
        read_command_append_ok hrc (fun hcon => by cases hcon) cs]
      exact rph_some_append h cs

theorem rpc_err_append {fb : FrameBuffer} {e : PanicMsg}
    (h : resume_parsing_at_command fb = .error e) (cs : List Nat) :
    resume_parsing_at_command (fb.append cs) = .error e := by
  cases hrc : read_command fb with
  | error e2 =>
    simp only [resume_parsing_at_command, hrc] at h
    injection h with h'
    subst h'
    simp only [resume_parsing_at_command, read_command_append_err hrc cs]
  | ok p =>
    obtain ⟨r, fb2⟩ := p
    cases r with
    | Incomplete =>
      simp only [resume_parsing_at_command, hrc] at h
      exact Except.noConfusion h
    | HeartBeat =>
      simp only [resume_parsing_at_command, hrc] at h
      exact Except.noConfusion h
    | Command c =>
      simp only [resume_parsing_at_command, hrc] at h
      simp only [resume_parsing_at_command,
        read_command_append_ok hrc (fun hcon => by cases hcon) cs]
      exact rph_err_append h cs

theorem rpc_none_append {fb fb1 : FrameBuffer}
    (h : resume_parsing_at_command fb = .ok (none, fb1))
    (hph : fb.parse_state.phase = .Command) (cs : List Nat) :
    resume_parsing_at_command (fb.append cs) = read_transmission (fb1.append cs) := by
  cases hrc : read_command fb with
  | error e =>
    simp only [resume_parsing_at_command, hrc] at h
    exact Except.noConfusion h
  | ok p =>
    obtain ⟨r, fb2⟩ := p
    cases r with
    | HeartBeat =>
      simp only [resume_parsing_at_command, hrc] at h
      simp at h
    | Incomplete =>
      simp only [resume_parsing_at_command, hrc] at h
      simp only [Except.ok.injEq, Prod.mk.injEq] at h
      have hfb2 : fb2 = fb := read_command_incomplete hrc
      rw [← h.2, hfb2]
      have hph2 : (fb.append cs).parse_state.phase = .Command := hph
      rw [tx_phase_command hph2]
    | Command c =>
      simp only [resume_parsing_at_command, hrc] at h
      simp only [resume_parsing_at_command,
        read_command_append_ok hrc (fun hcon => by cases hcon) cs]
      have hph2 : (to_headers_phase fb2 c).parse_state.phase = .Headers := rfl
      exact rph_none_append h hph2 cs

theorem rpc_some_lt {fb fb1 : FrameBuffer} {t : Transmission}
    (h : resume_parsing_at_command fb = .ok (some t, fb1)) :
    fb1.buffer.length < fb.buffer.length := by
  cases hrc : read_command fb with
  | error e =>
    simp only [resume_parsing_at_command, hrc] at h
    exact Except.noConfusion h
  | ok p =>
    obtain ⟨r, fb2⟩ := p
    cases r with
    | Incomplete =>
      simp only [resume_parsing_at_command, hrc] at h
      simp at h
    | HeartBeat =>
      simp only [resume_parsing_at_command, hrc] at h
      simp only [Except.ok.injEq, Prod.mk.injEq, Option.some.injEq] at h
      rw [← h.2]
      exact read_command_lt hrc (fun hcon => by cases hcon)
    | Command c =>
      simp only [resume_parsing_at_command, hrc] at h
      have h1 := rph_some_lt h
      have hb : (to_headers_phase fb2 c).buffer.length = fb2.buffer.length := rfl
      have h2 := read_command_lt hrc (fun hcon => by cases hcon)
      rw [hb] at h1
      omega

theorem rpc_err_char {fb : FrameBuffer} {e : PanicMsg}
    (h : resume_parsing_at_command fb = .error e) :
    e = .notUtf8 ∨ e = .invalidHeader := by
  cases hrc : read_command fb with
  | error e2 =>
    simp only [resume_parsing_at_command, hrc] at h
    injection h with h'
    subst h'
    exact Or.inl (read_command_err hrc)
  | ok p =>
    obtain ⟨r, fb2⟩ := p
    cases r with
    | Incomplete =>
      simp only [resume_parsing_at_command, hrc] at h
      exact Except.noConfusion h
    | HeartBeat =>
      simp only [resume_parsing_at_command, hrc] at h
      exact Except.noConfusion h
    | Command c =>
      simp only [resume_parsing_at_command, hrc] at h
      rcases rph_err_char h with h1 | h2 | ⟨-, hcmd⟩
      · exact Or.inl h1
      · exact Or.inr h2
      · exact absurd hcmd (by intro hcon; cases hcon)

theorem rpc_inv9 {fb fb1 : FrameBuffer} {r : Option Transmission}
    (h : resume_parsing_at_command fb = .ok (r, fb1))
    (hi : CommandPresentInv fb) : CommandPresentInv fb1 := by
  cases hrc : read_command fb with
  | error e =>
    simp only [resume_parsing_at_command, hrc] at h
    exact Except.noConfusion h
  | ok p =>
    obtain ⟨r2, fb2⟩ := p
    cases r2 with
    | Incomplete =>
      simp only [resume_parsing_at_command, hrc] at h
      simp only [Except.ok.injEq, Prod.mk.injEq] at h
      rw [← h.2]
      exact inv9_ps_congr (read_command_parse_state hrc) hi
    | HeartBeat =>
      simp only [resume_parsing_at_command, hrc] at h
      simp only [Except.ok.injEq, Prod.mk.injEq] at h
      rw [← h.2]
      exact inv9_ps_congr (read_command_parse_state hrc) hi
    | Command c =>
      simp only [resume_parsing_at_command, hrc] at h
      exact rph_inv9 h (fun hcon => by cases hcon)

theorem tx_some_append {fb fb1 : FrameBuffer} {t : Transmission}
    (h : read_transmission fb = .ok (some t, fb1)) (cs : List Nat) :
    read_transmission (fb.append cs) = .ok (some t, fb1.append cs) := by
  cases hph : fb.parse_state.phase with
  | Command =>
    rw [tx_phase_command hph] at h
    rw [tx_phase_command (show (fb.append cs).parse_state.phase = .Command from hph)]
    exact rpc_some_append h cs
  | Headers =>
    rw [tx_phase_headers hph] at h
    rw [tx_phase_headers (show (fb.append cs).parse_state.phase = .Headers from hph)]
    exact rph_some_append h cs
  | Body =>
    rw [tx_phase_body hph] at h
    rw [tx_phase_body (show (fb.append cs).parse_state.phase = .Body from hph)]
    exact rpb_some_append h cs

theorem tx_err_append {fb : FrameBuffer} {e : PanicMsg}
    (h : read_transmission fb = .error e) (cs : List Nat) :
    read_transmission (fb.append cs) = .error e := by
  cases hph : fb.parse_state.phase with
  | Command =>
    rw [tx_phase_command hph] at h
    rw [tx_phase_command (show (fb.append cs).parse_state.phase = .Command from hph)]
    exact rpc_err_append h cs
  | Headers =>
    rw [tx_phase_headers hph] at h
    rw [tx_phase_headers (show (fb.append cs).parse_state.phase = .Headers from hph)]
    exact rph_err_append h cs
  | Body =>
    rw [tx_phase_body hph] at h
    rw [tx_phase_body (show (fb.append cs).parse_state.phase = .Body from hph)]
    exact rpb_err_append h cs

theorem tx_none_append {fb fb1 : FrameBuffer}
    (h : read_transmission fb = .ok (none, fb1)) (cs : List Nat) :
    read_transmission (fb.append cs) = read_transmission (fb1.append cs) := by
  cases hph : fb.parse_state.phase with
  | Command =>
    rw [tx_phase_command hph] at h
    rw [tx_phase_command (show (fb.append cs).parse_state.phase = .Command from hph)]
    exact rpc_none_append h hph cs
  | Headers =>
    rw [tx_phase_headers hph] at h
    rw [tx_phase_headers (show (fb.append cs).parse_state.phase = .Headers from hph)]
    exact rph_none_append h hph cs
  | Body =>
    rw [tx_phase_body hph] at h
    have hfb1 : fb1 = fb := rpb_none h
    rw [hfb1]

theorem tx_some_lt {fb fb1 : FrameBuffer} {t : Transmission}
    (h : read_transmission fb = .ok (some t, fb1)) :
    fb1.buffer.length < fb.buffer.length := by
  cases hph : fb.parse_state.phase with
  | Command => rw [tx_phase_command hph] at h; exact rpc_some_lt h
  | Headers => rw [tx_phase_headers hph] at h; exact rph_some_lt h
  | Body => rw [tx_phase_body hph] at h; exact (rpb_some_inv h).2

theorem tx_none_idem {fb fb1 : FrameBuffer}
    (h : read_transmission fb = .ok (none, fb1)) :
    read_transmission fb1 = .ok (none, fb1) := by
  have h2 := tx_none_append h []
  rw [append_nil, append_nil] at h2
  rw [← h2]
  exact h

theorem tx_inv9 {fb fb1 : FrameBuffer} {r : Option Transmission}
    (h : read_transmission fb = .ok (r, fb1))
    (hi : CommandPresentInv fb) : CommandPresentInv fb1 := by
  cases hph : fb.parse_state.phase with
  | Command =>
    rw [tx_phase_command hph] at h
    exact rpc_inv9 h hi
  | Headers =>
    rw [tx_phase_headers hph] at h
    exact rph_inv9 h (hi (Or.inl hph))
  | Body =>
    rw [tx_phase_body hph] at h
    cases r with
    | none =>
      have hfb1 : fb1 = fb := rpb_none h
      rw [hfb1]
      exact hi
    | some t =>
      obtain ⟨hps, -⟩ := rpb_some_inv h
      intro hph2
      rw [hps] at hph2
      simp at hph2

theorem tx_err_noCommand {fb : FrameBuffer}
    (h : read_transmission fb = .error .noCommand) :
    fb.parse_state.command = none ∧
      (fb.parse_state.phase = .Headers ∨ fb.parse_state.phase = .Body) := by
  cases hph : fb.parse_state.phase with
  | Command =>
    rw [tx_phase_command hph] at h
    rcases rpc_err_char h with h1 | h2
    · cases h1
    · cases h2
  | Headers =>
    rw [tx_phase_headers hph] at h
    rcases rph_err_char h with h1 | h2 | ⟨-, hcmd⟩
    · cases h1
    · cases h2
    · exact ⟨hcmd, Or.inl rfl⟩
  | Body =>
    rw [tx_phase_body hph] at h
    exact ⟨(rpb_err h).2, Or.inr rfl⟩

theorem tx_ne_readBeyondEnd (fb : FrameBuffer) :
    read_transmission fb ≠ .error .readBeyondEnd := by
  intro h
  cases hph : fb.parse_state.phase with
  | Command =>
    rw [tx_phase_command hph] at h
    rcases rpc_err_char h with h1 | h2
    · cases h1
    · cases h2
  | Headers =>
    rw [tx_phase_headers hph] at h
    rcases rph_err_char h with h1 | h2 | ⟨h3, -⟩
    · cases h1
    · cases h2
    · cases h3
  | Body =>
    rw [tx_phase_body hph] at h
    cases (rpb_err h).1

/-! `drain` and its composition under appends. -/

theorem drain_fuel_congr :
    ∀ {f1 f2 : Nat} {fb : FrameBuffer},
      fb.buffer.length < f1 → fb.buffer.length < f2 →
      drain_fuel f1 fb = drain_fuel f2 fb := by
  intro f1
  induction f1 with
  | zero => intro f2 fb h1 h2; omega
  | succ m ih =>
    intro f2 fb h1 h2
    cases f2 with
    | zero => omega
    | succ k =>
      simp only [drain_fuel]
      cases htx : read_transmission fb with
      | error e => rfl
      | ok p =>
        obtain ⟨r, fb1⟩ := p
        cases r with
        | none => rfl
        | some t =>
          have hlt := tx_some_lt htx
          have heq : drain_fuel m fb1 = drain_fuel k fb1 := ih (by omega) (by omega)
          exact congrArg
            (fun d => match d with
              | Except.error e => Except.error e
              | Except.ok (ts, fb2) => Except.ok (t :: ts, fb2)) heq

theorem drain_eq (fb : FrameBuffer) :
    drain fb =
      match read_transmission fb with
      | .error e => .error e
      | .ok (none, fb1) => .ok ([], fb1)
      | .ok (some t, fb1) =>
        match drain fb1 with
        | .error e => .error e
        | .ok (ts, fb2) => .ok (t :: ts, fb2) := by
  show drain_fuel (fb.buffer.length + 1) fb = _
  simp only [drain_fuel]
  cases htx : read_transmission fb with
  | error e => rfl
  | ok p =>
    obtain ⟨r, fb1⟩ := p
    cases r with
    | none => rfl
    | some t =>
      have hlt := tx_some_lt htx
      have heq : drain_fuel fb.buffer.length fb1 = drain fb1 :=
        drain_fuel_congr (by omega) (by omega)
      exact congrArg
        (fun d => match d with
          | Except.error e => Except.error e
          | Except.ok (ts, fb2) => Except.ok (t :: ts, fb2)) heq

theorem drain_err_append_aux :
    ∀ (n : Nat) (fb : FrameBuffer), fb.buffer.length ≤ n →
      ∀ {e : PanicMsg}, drain fb = .error e →
      ∀ cs, drain (fb.append cs) = .error e := by
  intro n
  induction n with
  | zero =>
    intro fb hn e h cs
    rw [drain_eq fb] at h
    cases htx : read_transmission fb with
    | error e2 =>
      simp only [htx] at h
      injection h with h'
      subst h'
      rw [drain_eq (fb.append cs), tx_err_append htx cs]
    | ok p =>
      obtain ⟨r, fb1⟩ := p
      cases r with
      | none =>
        simp only [htx] at h
        exact Except.noConfusion h
      | some t =>
        have hlt := tx_some_lt htx
        omega
  | succ m ih =>
    intro fb hn e h cs
    rw [drain_eq fb] at h
    cases htx : read_transmission fb with
    | error e2 =>
      simp only [htx] at h
      injection h with h'
      subst h'
      rw [drain_eq (fb.append cs), tx_err_append htx cs]
    | ok p =>
      obtain ⟨r, fb1⟩ := p
      cases r with
      | none =>
        simp only [htx] at h
        exact Except.noConfusion h
      | some t =>
        simp only [htx] at h
        have hlt := tx_some_lt htx
        cases hd : drain fb1 with
        | error e2 =>
          rw [hd] at h
          injection h with h'
          subst h'
          have hrec := ih fb1 (by omega) hd cs
          rw [drain_eq (fb.append cs), tx_some_append htx cs]
          simp only [hrec]
        | ok q =>
          rw [hd] at h
          exact Except.noConfusion h

theorem drain_err_append {fb : FrameBuffer} {e : PanicMsg}
    (h : drain fb = .error e) (cs : List Nat) :
    drain (fb.append cs) = .error e :=
  drain_err_append_aux fb.buffer.length fb le_rfl h cs

theorem drain_comp_aux :
    ∀ (n : Nat) (fb : FrameBuffer), fb.buffer.length ≤ n →
      ∀ {ts1 : List Transmission} {fb1 : FrameBuffer},
        drain fb = .ok (ts1, fb1) →
        ∀ cs, drain (fb.append cs) =
          match drain (fb1.append cs) with
          | .error e => .error e
          | .ok (ts2, fb2) => .ok (ts1 ++ ts2, fb2) := by
  intro n
  induction n with
  | zero =>
    intro fb hn ts1 fb1 h cs
    rw [drain_eq fb] at h
    cases htx : read_transmission fb with
    | error e =>
      simp only [htx] at h
      exact Except.noConfusion h
    | ok p =>
      obtain ⟨r, fb0⟩ := p
      cases r with
      | some t =>
        have hlt := tx_some_lt htx
        omega
      | none =>
        simp only [htx] at h
        simp only [Except.ok.injEq, Prod.mk.injEq] at h
        obtain ⟨hts, hfb⟩ := h
        subst hts
        subst hfb
        rw [drain_eq (fb.append cs), tx_none_append htx cs, ← drain_eq (fb0.append cs)]
        cases hd : drain (fb0.append cs) with
        | error e => rfl
        | ok q => obtain ⟨ts2, fb2⟩ := q; simp
  | succ m ih =>
    intro fb hn ts1 fb1 h cs
    rw [drain_eq fb] at h
    cases htx : read_transmission fb with
    | error e =>
      simp only [htx] at h
      exact Except.noConfusion h
    | ok p =>
      obtain ⟨r, fb0⟩ := p
      cases r with
      | none =>
        simp only [htx] at h
        simp only [Except.ok.injEq, Prod.mk.injEq] at h
        obtain ⟨hts, hfb⟩ := h
        subst hts
        subst hfb
        rw [drain_eq (fb.append cs), tx_none_append htx cs, ← drain_eq (fb0.append cs)]
        cases hd : drain (fb0.append cs) with
        | error e => rfl
        | ok q => obtain ⟨ts2, fb2⟩ := q; simp
      | some t =>
        simp only [htx] at h
        have hlt := tx_some_lt htx
        cases hd : drain fb0 with
        | error e =>
          rw [hd] at h
          exact Except.noConfusion h
        | ok q =>
          obtain ⟨ts0, fbq⟩ := q
          rw [hd] at h
          simp only [Except.ok.injEq, Prod.mk.injEq] at h
          obtain ⟨hts, hfb⟩ := h
          subst hts
          subst hfb
          have hrec := ih fb0 (by omega) hd cs
          rw [drain_eq (fb.append cs), tx_some_append htx cs]
          simp only [hrec]
          cases hd2 : drain (fbq.append cs) with
          | error e => rfl
          | ok q2 => obtain ⟨ts2, fb2⟩ := q2; simp

theorem drain_comp {fb fb1 : FrameBuffer} {ts1 : List Transmission}
    (h : drain fb = .ok (ts1, fb1)) (cs : List Nat) :
    drain (fb.append cs) =
      match drain (fb1.append cs) with
      | .error e => .error e
      | .ok (ts2, fb2) => .ok (ts1 ++ ts2, fb2) :=
  drain_comp_aux fb.buffer.length fb le_rfl h cs

theorem drain_quiescent_aux :
    ∀ (n : Nat) (fb : FrameBuffer), fb.buffer.length ≤ n →
      ∀ {ts : List Transmission} {fb1 : FrameBuffer},
        drain fb = .ok (ts, fb1) →
        read_transmission fb1 = .ok (none, fb1) := by
  intro n
  induction n with
  | zero =>
    intro fb hn ts fb1 h
    rw [drain_eq fb] at h
    cases htx : read_transmission fb with
    | error e =>
      simp only [htx] at h
      exact Except.noConfusion h
    | ok p =>
      obtain ⟨r, fb0⟩ := p
      cases r with
      | some t =>
        have hlt := tx_some_lt htx
        omega
      | none =>
        simp only [htx] at h
        simp only [Except.ok.injEq, Prod.mk.injEq] at h
        rw [← h.2]
        exact tx_none_idem htx
  | succ m ih =>
    intro fb hn ts fb1 h
    rw [drain_eq fb] at h
    cases htx : read_transmission fb with
    | error e =>
      simp only [htx] at h
      exact Except.noConfusion h
    | ok p =>
      obtain ⟨r, fb0⟩ := p
      cases r with
      | none =>
        simp only [htx] at h
        simp only [Except.ok.injEq, Prod.mk.injEq] at h
        rw [← h.2]
        exact tx_none_idem htx
      | some t =>
        simp only [htx] at h
        have hlt := tx_some_lt htx
        cases hd : drain fb0 with
        | error e =>
          rw [hd] at h
          exact Except.noConfusion h
        | ok q =>
          obtain ⟨ts0, fbq⟩ := q
          rw [hd] at h
          simp only [Except.ok.injEq, Prod.mk.injEq] at h
          rw [← h.2]
          exact ih fb0 (by omega) hd

theorem drain_quiescent {fb fb1 : FrameBuffer} {ts : List Transmission}
    (h : drain fb = .ok (ts, fb1)) :
    read_transmission fb1 = .ok (none, fb1) :=
  drain_quiescent_aux fb.buffer.length fb le_rfl h

theorem process_chunks_complete :
    ∀ (chunks : List (List Nat)) (fb : FrameBuffer),
      read_transmission fb = .ok (none, fb) →
      ∀ {ts : List Transmission} {fbf : FrameBuffer},
        drain (fb.append chunks.flatten) = .ok (ts, fbf) →
        process_chunks chunks fb = .ok (ts, fbf) := by
  intro chunks
  induction chunks with
  | nil =>
    intro fb hq ts fbf h
    simp only [List.flatten_nil, append_nil] at h
    rw [drain_eq fb, hq] at h
    simp only [Except.ok.injEq, Prod.mk.injEq] at h
    rw [process_chunks, ← h.1, ← h.2]
  | cons c rest ih =>
    intro fb hq ts fbf h
    have hsplit : fb.append ((c :: rest).flatten) = (fb.append c).append rest.flatten := by
      rw [List.flatten_cons, ← append_append]
    rw [hsplit] at h
    cases hd : drain (fb.append c) with
    | error e =>
      rw [drain_err_append hd rest.flatten] at h
      exact Except.noConfusion h
    | ok p =>
      obtain ⟨ts1, fb1⟩ := p
      have hcomp := drain_comp hd rest.flatten
      rw [hcomp] at h
      cases hd2 : drain (fb1.append rest.flatten) with
      | error e =>
        rw [hd2] at h
        exact Except.noConfusion h
      | ok q =>
        obtain ⟨ts2, fb2⟩ := q
        rw [hd2] at h
        simp only [Except.ok.injEq, Prod.mk.injEq] at h
        obtain ⟨hts, hfb⟩ := h
        have hq1 : read_transmission fb1 = .ok (none, fb1) := drain_quiescent hd
        have hrec := ih fb1 hq1 hd2
        simp only [process_chunks, hd, hrec]
        rw [hts, hfb]

/-! Reachability and the command-present invariant. -/

theorem reachable_inv9 {fb : FrameBuffer} (h : Reachable fb) : CommandPresentInv fb := by
  induction h with
  | new =>
    intro hph
    have hcph : FrameBuffer.new.parse_state.phase = .Command := rfl
    rw [hcph] at hph
    rcases hph with hph | hph <;> cases hph
  | append fb bytes hr ih =>
    exact inv9_ps_congr rfl ih
  | read fb fb' r hr htx ih =>
    exact tx_inv9 htx ih
  | reset fb hr ih =>
    intro hph
    have hcph : fb.reset.parse_state.phase = .Command := rfl
    rw [hcph] at hph
    rcases hph with hph | hph <;> cases hph
  | recycle fb frame hr ih =>
    exact inv9_ps_congr rfl ih

/-! Body-phase behavior of `read_transmission`, for both framing
strategies. -/

theorem tx_body_cl_incomplete (fb : FrameBuffer) (L : Nat)
    (hphase : fb.parse_state.phase = .Body)
    (hcl : get_content_length fb.parse_state.headers = some L)
    (hlt : fb.buffer.length < L + 1) :
    read_transmission fb = .ok (none, fb) := by
  rw [tx_phase_body hphase]
  have hrb : read_body fb = .ok (none, fb) := by
    simp only [read_body, hcl, read_body_by_cl_insufficient hlt]
  simp only [resume_parsing_at_body, hrb]

theorem tx_body_cl_emit (fb : FrameBuffer) (L : Nat) (c : List Nat)
    (hphase : fb.parse_state.phase = .Body)
    (hcl : get_content_length fb.parse_state.headers = some L)
    (hcmd : fb.parse_state.command = some c)
    (hge : L + 1 ≤ fb.buffer.length) :
    read_transmission fb =
      .ok (some (.CompleteFrame
              { command := c, headers := fb.parse_state.headers, body := fb.buffer.take L }),
           { fb with buffer := fb.buffer.drop (L + 1),
                     parse_state := { command := none, headers := [], phase := .Command } }) := by
  rw [tx_phase_body hphase]
  have hrb : read_body fb =
      .ok (some (fb.buffer.take L), { fb with buffer := fb.buffer.drop (L + 1) }) := by
    simp only [read_body, hcl, read_body_by_cl_sufficient hge, dropLast_take hge]
  have hcmd2 : ({ fb with buffer := fb.buffer.drop (L + 1) } : FrameBuffer).parse_state.command
      = some c := hcmd
  simp only [resume_parsing_at_body, hrb, hcmd2, hcmd]

theorem tx_body_null_incomplete (fb : FrameBuffer)
    (hphase : fb.parse_state.phase = .Body)
    (hcl : get_content_length fb.parse_state.headers = none)
    (hnull : find_next 0 fb.buffer = none) :
    read_transmission fb = .ok (none, fb) := by
  rw [tx_phase_body hphase]
  have hrb : read_body fb = .ok (none, fb) := by
    simp only [read_body, hcl, read_body_by_null_none hnull]
  simp only [resume_parsing_at_body, hrb]

theorem tx_body_null_emit (fb : FrameBuffer) (i : Nat) (c : List Nat)
    (hphase : fb.parse_state.phase = .Body)
    (hcl : get_content_length fb.parse_state.headers = none)
    (hcmd : fb.parse_state.command = some c)
    (hf : find_next 0 fb.buffer = some i) :
    read_transmission fb =
      .ok (some (.CompleteFrame
              { command := c, headers := fb.parse_state.headers, body := fb.buffer.take i }),
           { fb with buffer := fb.buffer.drop (i + 1),
                     parse_state := { command := none, headers := [], phase := .Command } }) := by
  rw [tx_phase_body hphase]
  have hlen : i + 1 ≤ fb.buffer.length := find_next_lt_length hf
  have hrb : read_body fb =
      .ok (some (fb.buffer.take i), { fb with buffer := fb.buffer.drop (i + 1) }) := by
    simp only [read_body, hcl, read_body_by_null_found hf, dropLast_take hlen]
  have hcmd2 : ({ fb with buffer := fb.buffer.drop (i + 1) } : FrameBuffer).parse_state.command
      = some c := hcmd
  simp only [resume_parsing_at_body, hrb, hcmd2, hcmd]

/-! Claim theorems. -/

/-- C1: the claim states that a header line that fails to decode, and
non-UTF8 bytes in a command or header line, are surfaced to the caller as
structured recoverable protocol-violation errors and never crash the
process. The code does the opposite: `read_into_string` panics via
`.expect` on non-UTF8 input and `read_header` panics via `.expect` on a
decode failure, both reachable from untrusted network bytes. This theorem
evaluates both failing inputs: appending `0xFF 0x0A` to a fresh buffer
panics with the not-utf8 message, and appending `C\nx\n` (a header line
with no colon separator) panics with the invalid-header message. -/
theorem c1_untrusted_input_panics :
    read_transmission (FrameBuffer.new.append [255, 10]) = .error .notUtf8 ∧
    read_transmission (FrameBuffer.new.append [67, 10, 120, 10]) = .error .invalidHeader :=
  ⟨rfl, rfl⟩

/-- C2: the claim states `reset()` leaves the byte queue empty and the
parse state fully cleared (no stored command, empty header accumulator,
Command phase). The code's `reset_parse_state` only resets the `section`
field, so the stored command and the accumulated headers survive a reset.
Evaluated after parsing `CMD\nk:v\n`: the reset state is in the Command
phase with an empty queue but still stores the command `CMD` and the
header `k: v`. -/
theorem c2_reset_retains_parse_state :
    read_transmission (FrameBuffer.new.append [67, 77, 68, 10, 107, 58, 118, 10]) =
      .ok (none,
        { buffer := [],
          parse_state := { command := some [67, 77, 68],
                           headers := [{ key := [107], value := [118] }],
                           phase := .Headers },
          string_pool := [[107, 58, 118], [], []] }) ∧
    (FrameBuffer.reset
        { buffer := [],
          parse_state := { command := some [67, 77, 68],
                           headers := [{ key := [107], value := [118] }],
                           phase := .Headers },
          string_pool := [[107, 58, 118], [], []] }) =
      { buffer := [],
        parse_state := { command := some [67, 77, 68],
                         headers := [{ key := [107], value := [118] }],
                         phase := .Command },
        string_pool := [[107, 58, 118], [], []] } :=
  ⟨rfl, rfl⟩

/-- C3: the claim states the phase invariant (Command phase implies no
stored command and empty headers; Headers/Body phase implies a stored
command) is preserved by every public operation from every reachable
state. `reset` violates it: from the reachable state after appending and
reading `CMD\n` (Headers phase with stored command), `reset` produces a
Command-phase state that still stores the command, breaking the
Command-phase direction of the invariant. -/
theorem c3_reset_breaks_phase_invariant :
    read_transmission (FrameBuffer.new.append [67, 77, 68, 10]) =
      .ok (none,
        { buffer := [],
          parse_state := { command := some [67, 77, 68], headers := [], phase := .Headers },
          string_pool := [[], [], []] }) ∧
    (FrameBuffer.reset
        { buffer := [],
          parse_state := { command := some [67, 77, 68], headers := [], phase := .Headers },
          string_pool := [[], [], []] }).parse_state.phase = .Command ∧
    (FrameBuffer.reset
        { buffer := [],
          parse_state := { command := some [67, 77, 68], headers := [], phase := .Headers },
          string_pool := [[], [], []] }).parse_state.command ≠ none :=
  ⟨rfl, rfl, by decide⟩

/-- C4: reassembly independence — for every byte sequence on which a
single append followed by repeated reads completes without a panic (in
particular every well-formed sequence of frames and heartbeats), and for
every partition of that sequence into chunks, appending the chunks one at
a time and draining the available transmissions after each append yields
exactly the same ordered transmission list and the same final state. -/
theorem c4_reassembly_independence (chunks : List (List Nat))
    (ts : List Transmission) (fbf : FrameBuffer)
    (h : drain (FrameBuffer.new.append chunks.flatten) = .ok (ts, fbf)) :
    process_chunks chunks FrameBuffer.new = .ok (ts, fbf) :=
  process_chunks_complete chunks FrameBuffer.new rfl h

/-- C4 witness: the frame `CMD\n\nhi\x00` split into the chunks
`CMD\n\nh` and `i\x00` yields the same single transmission as a single
append of the whole sequence. -/
theorem c4_witness :
    drain (FrameBuffer.new.append ([[67, 77, 68, 10, 10, 104], [105, 0]] : List (List Nat)).flatten) =
      .ok ([Transmission.CompleteFrame { command := [67, 77, 68], headers := [], body := [104, 105] }],
           { buffer := [],
             parse_state := { command := none, headers := [], phase := .Command },
             string_pool := [[], [], []] }) ∧
    process_chunks [[67, 77, 68, 10, 10, 104], [105, 0]] FrameBuffer.new =
      .ok ([Transmission.CompleteFrame { command := [67, 77, 68], headers := [], body := [104, 105] }],
           { buffer := [],
             parse_state := { command := none, headers := [], phase := .Command },
             string_pool := [[], [], []] }) :=
  ⟨rfl, c4_reassembly_independence [[67, 77, 68, 10, 10, 104], [105, 0]] _ _ rfl⟩

/-- C5: in the Body phase with a reported Content-Length `L` and a stored
command: with fewer than `L + 1` buffered bytes, `read_transmission`
reports incomplete and leaves the state untouched; with at least `L + 1`
bytes it consumes exactly `L + 1` bytes from the head and emits a frame
whose body is exactly the first `L` of them, byte for byte, for every
possible byte value (the buffer is universally quantified, so bodies may
contain `0x00`, `\n` and `\r`). -/
theorem c5_content_length_exactness (fb : FrameBuffer) (L : Nat) (c : List Nat)
    (hphase : fb.parse_state.phase = .Body)
    (hcl : get_content_length fb.parse_state.headers = some L)
    (hcmd : fb.parse_state.command = some c) :
    (fb.buffer.length < L + 1 → read_transmission fb = .ok (none, fb)) ∧
    (L + 1 ≤ fb.buffer.length →
      read_transmission fb =
        .ok (some (.CompleteFrame
                { command := c, headers := fb.parse_state.headers, body := fb.buffer.take L }),
             { fb with buffer := fb.buffer.drop (L + 1),
                       parse_state := { command := none, headers := [], phase := .Command } })) :=
  ⟨fun hlt => tx_body_cl_incomplete fb L hphase hcl hlt,
   fun hge => tx_body_cl_emit fb L c hphase hcl hcmd hge⟩

/-- C5 witness: content length 3 over the buffer `h 0x00 \n 0x00 A`
emits the binary body `h 0x00 \n` and leaves the byte `A` buffered. -/
theorem c5_witness :
    read_transmission
        { buffer := [104, 0, 10, 0, 65],
          parse_state := { command := some [83, 69, 78, 68],
                           headers := [{ key := content_length_key, value := [51] }],
                           phase := .Body },
          string_pool := [] } =
      .ok (some (.CompleteFrame
              { command := [83, 69, 78, 68],
                headers := [{ key := content_length_key, value := [51] }],
                body := [104, 0, 10] }),
           { buffer := [65],
             parse_state := { command := none, headers := [], phase := .Command },
             string_pool := [] }) :=
  (c5_content_length_exactness
      { buffer := [104, 0, 10, 0, 65],
        parse_state := { command := some [83, 69, 78, 68],
                         headers := [{ key := content_length_key, value := [51] }],
                         phase := .Body },
        string_pool := [] } 3 [83, 69, 78, 68] rfl rfl rfl).2 (by decide)

/-- C6: in the Body phase with no Content-Length header and a stored
command: if the byte queue contains no `0x00`, `read_transmission`
reports incomplete with the state untouched; otherwise it consumes
through and including the first `0x00` (at offset `i`) and emits a frame
whose body is exactly the bytes that preceded it, the sentinel being
discarded. -/
theorem c6_null_delimited_body (fb : FrameBuffer) (c : List Nat)
    (hphase : fb.parse_state.phase = .Body)
    (hcl : get_content_length fb.parse_state.headers = none)
    (hcmd : fb.parse_state.command = some c) :
    ((0 : Nat) ∉ fb.buffer → read_transmission fb = .ok (none, fb)) ∧
    (∀ i : Nat, find_next 0 fb.buffer = some i →
      read_transmission fb =
        .ok (some (.CompleteFrame
                { command := c, headers := fb.parse_state.headers, body := fb.buffer.take i }),
             { fb with buffer := fb.buffer.drop (i + 1),
                       parse_state := { command := none, headers := [], phase := .Command } })) :=
  ⟨fun hmem => tx_body_null_incomplete fb hphase hcl (find_next_eq_none hmem),
   fun i hf => tx_body_null_emit fb i c hphase hcl hcmd hf⟩

/-- C6 witness: the buffer `h i 0x00 X` with no Content-Length emits the
body `hi` and leaves `X` buffered. -/
theorem c6_witness :
    read_transmission
        { buffer := [104, 105, 0, 88],
          parse_state := { command := some [83], headers := [], phase := .Body },
          string_pool := [] } =
      .ok (some (.CompleteFrame { command := [83], headers := [], body := [104, 105] }),
           { buffer := [88],
             parse_state := { command := none, headers := [], phase := .Command },
             string_pool := [] }) :=
  (c6_null_delimited_body
      { buffer := [104, 105, 0, 88],
        parse_state := { command := some [83], headers := [], phase := .Body },
        string_pool := [] } [83] rfl rfl rfl).2 2 rfl

/-- C7: appending exactly `\n` — or any line that chomps to empty, i.e.
any run of `\r` bytes followed by `\n` — to an empty buffer in a clean
Command-phase state and reading yields a Heartbeat transmission, returns
the pooled storage of the empty line to the string pool, and leaves zero
residual state: empty buffer, no stored command, empty headers, Command
phase. -/
theorem c7_heartbeat_isolation (fb : FrameBuffer) (pre : List Nat)
    (hphase : fb.parse_state.phase = .Command)
    (hcmd : fb.parse_state.command = none)
    (hhdr : fb.parse_state.headers = [])
    (hbuf : fb.buffer = [])
    (hpre : ∀ b ∈ pre, b = 13) :
    read_transmission (fb.append (pre ++ [10])) =
      .ok (some .HeartBeat,
           { buffer := [],
             parse_state := { command := none, headers := [], phase := .Command },
             string_pool := pool_attach (pool_take fb.string_pool) [] }) := by
  have hps : fb.parse_state = { command := none, headers := [], phase := .Command } := by
    cases hfps : fb.parse_state
    simp_all
  have hne10 : ∀ b ∈ pre, b ≠ 10 := fun b hb => by rw [hpre b hb]; decide
  have hbuf2 : (fb.append (pre ++ [10])).buffer = pre ++ [10] := by
    rw [append_buffer, hbuf, List.nil_append]
  have hf : find_next 10 (fb.append (pre ++ [10])).buffer = some pre.length := by
    rw [hbuf2]
    exact find_next_append_last hne10
  have htake : (fb.append (pre ++ [10])).buffer.take (pre.length + 1) = pre ++ [10] := by
    rw [hbuf2]
    apply List.take_of_length_le
    simp
  have hdrop : (fb.append (pre ++ [10])).buffer.drop (pre.length + 1) = [] := by
    rw [hbuf2]
    apply List.drop_of_length_le
    simp
  have hutf : is_utf8 ((fb.append (pre ++ [10])).buffer.take (pre.length + 1)) = true := by
    rw [htake]
    apply is_utf8_ascii
    intro b hb
    rcases List.mem_append.mp hb with hpre2 | h10
    · rw [hpre b hpre2]; omega
    · have hb10 : b = 10 := by simpa using h10
      rw [hb10]; omega
  have hch : chomp ((fb.append (pre ++ [10])).buffer.take (pre.length + 1)) = [] := by
    rw [htake]
    apply chomp_eq_nil
    intro b hb
    rcases List.mem_append.mp hb with hpre2 | h10
    · exact Or.inl (hpre b hpre2)
    · right
      simpa using h10
  have hrc := read_command_found_utf8 hf hutf
  rw [if_pos hch] at hrc
  rw [tx_phase_command (show (fb.append (pre ++ [10])).parse_state.phase = .Command from hphase)]
  simp only [resume_parsing_at_command, hrc, hdrop, hch, append_parse_state,
    append_string_pool, hps]

/-- C7 witness: appending exactly the single byte `\n` to a fresh
FrameBuffer yields the Heartbeat and a fully clean state, with the empty
line back in the pool. -/
theorem c7_witness :
    read_transmission (FrameBuffer.new.append ([] ++ [10])) =
      .ok (some .HeartBeat,
           { buffer := [],
             parse_state := { command := none, headers := [], phase := .Command },
             string_pool := [[], [], [], []] }) :=
  c7_heartbeat_isolation FrameBuffer.new [] rfl rfl rfl rfl
    (fun b hb => absurd hb (List.not_mem_nil b))

/-- C8: the claim states that after every CompleteFrame or Heartbeat
emission the parse state is fully reset (Command phase, no stored
command, empty headers). The heartbeat path of
`resume_parsing_at_command` does not touch the stored command, so from
the reachable state produced by `CMD\n` → read → `reset` → append `\n`,
the Heartbeat emission leaves the stale command `CMD` stored,
contradicting the claim. -/
theorem c8_emission_can_retain_stale_command :
    read_transmission (FrameBuffer.new.append [67, 77, 68, 10]) =
      .ok (none,
        { buffer := [],
          parse_state := { command := some [67, 77, 68], headers := [], phase := .Headers },
          string_pool := [[], [], []] }) ∧
    read_transmission
        ((FrameBuffer.reset
            { buffer := [],
              parse_state := { command := some [67, 77, 68], headers := [], phase := .Headers },
              string_pool := [[], [], []] }).append [10]) =
      .ok (some .HeartBeat,
        { buffer := [],
          parse_state := { command := some [67, 77, 68], headers := [], phase := .Command },
          string_pool := [[], [], []] }) ∧
    ({ buffer := [],
       parse_state := { command := some [67, 77, 68], headers := [], phase := .Command },
       string_pool := [[], [], []] } : FrameBuffer).parse_state.command ≠ none :=
  ⟨rfl, rfl, by decide⟩

/-- C9: from every state reachable by the public operations (append,
read_transmission, reset, recycle_frame) from a fresh FrameBuffer, the
two internal-invariant panic branches are unreachable: a read never hits
the read-beyond-end branch of `read_into_vec` and never hits the
no-command branch of body assembly. -/
theorem c9_internal_panics_unreachable (fb : FrameBuffer) (h : Reachable fb) :
    read_transmission fb ≠ .error .readBeyondEnd ∧
    read_transmission fb ≠ .error .noCommand :=
  ⟨tx_ne_readBeyondEnd fb,
   fun he => (reachable_inv9 h) (tx_err_noCommand he).2 (tx_err_noCommand he).1⟩

/-- C9 witness: instantiated at the fresh FrameBuffer. -/
theorem c9_witness :
    read_transmission FrameBuffer.new ≠ .error .readBeyondEnd ∧
    read_transmission FrameBuffer.new ≠ .error .noCommand :=
  c9_internal_panics_unreachable FrameBuffer.new Reachable.new

/-- C10: in Content-Length mode the terminating sentinel byte is never
validated: whenever the buffer holds a declared body of length `L`
followed by any byte `b` and a remainder, the `(L+1)`-th byte `b` is
consumed and silently discarded and a CompleteFrame is emitted, with no
hypothesis that `b` is `0x00`. -/
theorem c10_sentinel_not_validated (fb : FrameBuffer) (L : Nat) (c body : List Nat)
    (b : Nat) (rest : List Nat)
    (hphase : fb.parse_state.phase = .Body)
    (hcl : get_content_length fb.parse_state.headers = some L)
    (hcmd : fb.parse_state.command = some c)
    (hbuf : fb.buffer = body ++ b :: rest)
    (hlen : body.length = L) :
    read_transmission fb =
      .ok (some (.CompleteFrame { command := c, headers := fb.parse_state.headers, body := body }),
           { fb with buffer := rest,
                     parse_state := { command := none, headers := [], phase := .Command } }) := by
  have hge : L + 1 ≤ fb.buffer.length := by
    rw [hbuf, List.length_append, List.length_cons]
    omega
  have h := tx_body_cl_emit fb L c hphase hcl hcmd hge
  have htake : fb.buffer.take L = body := by
    rw [hbuf, ← hlen, List.take_left]
  have hdrop : fb.buffer.drop (L + 1) = rest := by
    rw [hbuf, ← hlen, ← List.drop_drop, List.drop_left]
    rfl
  rw [htake, hdrop] at h
  exact h

/-- C10 witness: content length 3, body `hi!`, followed by the non-null
byte `A` in sentinel position — the frame is emitted anyway and `A` is
silently discarded. -/
theorem c10_witness :
    read_transmission
        { buffer := [104, 105, 33, 65, 90],
          parse_state := { command := some [77],
                           headers := [{ key := content_length_key, value := [51] }],
                           phase := .Body },
          string_pool := [] } =
      .ok (some (.CompleteFrame
              { command := [77],
                headers := [{ key := content_length_key, value := [51] }],
                body := [104, 105, 33] }),
           { buffer := [90],
             parse_state := { command := none, headers := [], phase := .Command },
             string_pool := [] }) :=
  c10_sentinel_not_validated
    { buffer := [104, 105, 33, 65, 90],
      parse_state := { command := some [77],
                       headers := [{ key := content_length_key, value := [51] }],
                       phase := .Body },
      string_pool := [] } 3 [77] [104, 105, 33] 65 [90] rfl rfl rfl rfl rfl
